import Mathlib

/-!
Shallow embedding of the scoring services of business-radar-3000
(`src/services/keyword_match.py`, `src/services/contacts.py`,
`src/services/swot.py`) together with proofs of the specified properties.
Python strings are modelled as Lean `String`/`List Char`, Python integers as
`Int`/`Nat`, dictionaries as association lists, and sets as de-duplicated
lists in insertion order.
-/

namespace BusinessRadar

/-- ASCII lowercasing of one character (`str.lower` on the ASCII range):
code points 65–90 (`A`–`Z`) are shifted by 32. -/
def asciiLower (c : Char) : Char :=
  if 65 ≤ c.toNat ∧ c.toNat ≤ 90 then Char.ofNat (c.toNat + 32) else c

/-- The whitespace characters removed by Python `str.strip()` (ASCII range):
space, tab, newline, carriage return, vertical tab, form feed. -/
def isPySpace (c : Char) : Bool :=
  c.toNat = 32 ∨ c.toNat = 9 ∨ c.toNat = 10 ∨ c.toNat = 13 ∨
    c.toNat = 11 ∨ c.toNat = 12

/-- Drop the longest suffix whose characters satisfy `p`. -/
def dropRightWhileL (p : Char → Bool) (l : List Char) : List Char :=
  (l.reverse.dropWhile p).reverse

/-- Python `str.strip()` (ASCII whitespace). -/
def pyStripL (l : List Char) : List Char :=
  dropRightWhileL isPySpace (l.dropWhile isPySpace)

/-- Python `s.lower()`. -/
def pyLower (s : String) : String := ⟨s.data.map asciiLower⟩

/-- Python `s.strip()`. -/
def pyStrip (s : String) : String := ⟨pyStripL s.data⟩

/-- Python `k.strip().lower()` as used in `expand_keywords`. -/
def stripLower (s : String) : String := pyLower (pyStrip s)

/-- The `_SYNONYMS` table of `keyword_match.py`, in source order. -/
def SYNONYMS : List (String × List String) := [
  ("ai", ["artificial intelligence", "machine learning", "ml", "deep learning"]),
  ("saas", ["software as a service", "subscription software", "cloud software"]),
  ("crm", ["customer relationship management", "sales platform"]),
  ("procurement", ["purchasing", "sourcing", "supplier management"]),
  ("ev", ["electric vehicle", "battery electric", "e-mobility"]),
  ("chip", ["semiconductor", "integrated circuit", "ic", "microchip"]),
  ("erp", ["enterprise resource planning"]),
  ("expansion", ["expands", "expansion", "opens new", "new office", "new plant",
                 "new factory", "new facility", "new market"])]

/-- `_SYNONYMS.get(base, [])`. -/
def synOf (base : String) : List String :=
  match SYNONYMS.lookup base with
  | some l => l
  | none => []

/-- One `alt` step of `expand_keywords`: append when not yet seen (the code's
`seen` set and `out` list are kept in lockstep, so one list models both). -/
def addAlt (out : List String) (a : String) : List String :=
  if a ∈ out then out else out ++ [a]

/-- Processing of one raw keyword `k` inside `expand_keywords`'s loop. -/
def expandStep (out : List String) (k : String) : List String :=
  let base := stripLower k
  if base = "" then out
  else (synOf base ++ [base]).foldl addAlt out

/-- `expand_keywords` (keyword_match.py): synonym expansion, lowercased,
de-duplicated, first-seen order. -/
def expand_keywords (keywords : List String) : List String :=
  keywords.foldl expandStep []

/-- Characters kept by `_normalize`'s character class `[a-z0-9%+@.\- ]`. -/
def isNormKeep (c : Char) : Bool :=
  ('a' ≤ c ∧ c ≤ 'z') ∨ ('0' ≤ c ∧ c ≤ '9') ∨
    c = '%' ∨ c = '+' ∨ c = '@' ∨ c = '.' ∨ c = '-' ∨ c = ' '

/-- Unicode dash variants U+2010..U+2015 mapped to '-' (first substitution of
`_normalize`). -/
def dashFix (c : Char) : Char :=
  if 0x2010 ≤ c.toNat ∧ c.toNat ≤ 0x2015 then '-' else c

/-- Collapse runs of spaces to one space. Together with the character-wise
substitution in `pyNormalize` this realises the last two `re.sub` passes of
`_normalize`: replacing every maximal run of disallowed characters by a single
space and then collapsing `\s+` gives the same string as replacing each
disallowed character by a space and collapsing runs of spaces, and after the
class substitution the only whitespace character left is ' '. -/
def collapseSp : List Char → List Char
  | c1 :: c2 :: rest =>
      if c1 = ' ' ∧ c2 = ' ' then collapseSp (c2 :: rest)
      else c1 :: collapseSp (c2 :: rest)
  | l => l

/-- `_normalize` (keyword_match.py): lowercase, normalize dashes, replace
characters outside the allowed class, collapse whitespace, strip. -/
def pyNormalize (s : String) : String :=
  let l := (s.data.map (fun c => dashFix (asciiLower c))).map
      (fun c => if isNormKeep c then c else ' ')
  ⟨dropRightWhileL (fun c => c = ' ') ((collapseSp l).dropWhile (fun c => c = ' '))⟩

/-- Python `w in t` on strings: `w` occurs as a contiguous substring of `t`. -/
def subOf (w : List Char) : List Char → Bool
  | [] => w.isEmpty
  | c :: rest => w.isPrefixOf (c :: rest) || subOf w rest

/-- Characters of `b` that difflib's autojunk heuristic marks popular: active
only when `b` has at least 200 characters; a character is popular when it
occurs more than `len(b) // 100 + 1` times. `find_longest_match` never uses
popular positions of `b`. -/
def popularB (t : List Char) (c : Char) : Bool :=
  decide (200 ≤ t.length) && decide (t.length / 100 + 1 < t.count c)

/-- The positions `b2j[c]` of `c` in `b`, ascending; a popular character's
entry is deleted wholesale by the autojunk purge. -/
def jpos (b : List Char) (c : Char) : List Nat :=
  if popularB b c then []
  else (List.range b.length).filter fun j => b.getD j ' ' == c

/-- Number of initial steps `d = 0, 1, ...` (at most `fuel`) on which `p`
holds: the two greedy extension `while` loops of `find_longest_match`. -/
def cntWhile (p : Nat → Bool) : Nat → Nat → Nat
  | 0, _ => 0
  | fuel + 1, d => if p d then cntWhile p fuel (d + 1) + 1 else 0

/-- `SequenceMatcher(None, a, b).find_longest_match(0, len(a), 0, len(b))`,
with `isjunk = None`: the dynamic scan finds the longest common run that uses
no autojunk-popular position of `b` (first such maximal block in scan order),
and the extension loops then grow that block over equal neighbouring
characters; `bjunk` is empty, so their junk tests are vacuous and the final
junk-only loops never fire. Returns `(besti, bestj, bestsize)`. -/
def find_longest_match (a b : List Char) : Nat × Nat × Nat :=
  let scan := (List.range a.length).foldl
    (fun (st : List (Nat × Nat) × (Nat × Nat × Nat)) i =>
      (jpos b (a.getD i ' ')).foldl
        (fun (st2 : List (Nat × Nat) × (Nat × Nat × Nat)) j =>
          let k := (if j = 0 then 0 else ((st.1.lookup (j - 1)).getD 0)) + 1
          let best := st2.2
          let best' := if best.2.2 < k then (i + 1 - k, j + 1 - k, k) else best
          (st2.1 ++ [(j, k)], best'))
        ([], st.2))
    ([], (0, 0, 0))
  let bi0 := scan.2.1
  let bj0 := scan.2.2.1
  let bs0 := scan.2.2.2
  let e1 := cntWhile
    (fun d => a.getD (bi0 - d - 1) ' ' == b.getD (bj0 - d - 1) ' ') (min bi0 bj0) 0
  let bi := bi0 - e1
  let bj := bj0 - e1
  let bs := bs0 + e1
  let e2 := cntWhile
    (fun d => a.getD (bi + bs + d) ' ' == b.getD (bj + bs + d) ' ')
    (min (a.length - (bi + bs)) (b.length - (bj + bs))) 0
  (bi, bj, bs + e2)

/-- `SequenceMatcher(None, k, t).find_longest_match(0, len(k), 0, len(t)).size`. -/
def longestRun (k t : List Char) : Nat :=
  (find_longest_match k t).2.2

/-- Fuzzy acceptance test of `match_keywords`: longest-common-run ratio at
least 0.75. The float comparison `size / max(1, len(k)) >= 0.75` is exact at
these magnitudes, so it is encoded as the rational `3 * max 1 len ≤ 4 * size`. -/
def fuzzyHit (k t : List Char) : Bool :=
  decide (3 * max 1 k.length ≤ 4 * longestRun k t)

/-- Code-point lexicographic order on character lists (Python `<` on `str`). -/
def lexLt : List Char → List Char → Bool
  | [], [] => false
  | [], _ :: _ => true
  | _ :: _, [] => false
  | x :: xs, y :: ys => if x < y then true else if y < x then false else lexLt xs ys

/-- Python string comparison, code-point lexicographic. -/
def strLtB (a b : String) : Bool := lexLt a.data b.data

/-- Insert into an ascending list (used to model Python `sorted`). -/
def insSorted (a : String) : List String → List String
  | [] => [a]
  | b :: bs => if strLtB b a then b :: insSorted a bs else a :: b :: bs

/-- Python `sorted` on a list of strings. -/
def sortStr (l : List String) : List String := l.foldr insSorted []

/-- First-occurrence de-duplication: the set underlying a Python `set(...)`
comprehension, in insertion order. -/
def dedupStr (l : List String) : List String := l.foldl addAlt []

/-- The comprehension `[k.lower() for k in ks if k.strip()]` of `match_keywords`. -/
def keepLower (ks : List String) : List String :=
  (ks.filter fun k => pyStrip k != "").map pyLower

/-- Result shape of `match_keywords`. -/
structure MatchRes where
  matched : List String
  excluded : List String
deriving DecidableEq, Repr

/-- `match_keywords` (keyword_match.py): substring plus fuzzy matching for the
include list, substring-only matching for the exclude list, both against the
normalized text; both results sorted. -/
def match_keywords (text : String) (incl excl : List String) : MatchRes :=
  let inc := keepLower incl
  let exc := keepLower excl
  let t := pyNormalize text
  let matchedSub := dedupStr (inc.filter fun k => subOf k.data t.data)
  let matched := inc.foldl
    (fun acc k => if fuzzyHit k.data t.data then addAlt acc k else acc) matchedSub
  let excluded := dedupStr (exc.filter fun k => subOf k.data t.data)
  ⟨sortStr matched, sortStr excluded⟩

/-- One evidence record of `score_keyword_relevance`. -/
structure Evid where
  url : String
  snippet : String
  keywords : List String
deriving DecidableEq, Repr

/-- Result shape of `score_keyword_relevance`. -/
structure ScoreRes where
  score : Int
  evidence : List Evid
  matched_keywords : List String
  excluded_keywords : List String
deriving DecidableEq, Repr

/-- Loop state of `score_keyword_relevance`: running total, evidence list, and
the `all_matched` / `all_excluded` sets (modelled as de-duplicated lists). -/
structure ScanSt where
  total : Int
  evidence : List Evid
  allMatched : List String
  allExcluded : List String
deriving Repr

/-- Python `text.find(w)`: index of the first occurrence, `none` for −1. -/
def findSub (t w : List Char) : Option Nat :=
  match t with
  | [] => if w.isEmpty then some 0 else none
  | _ :: rest => if w.isPrefixOf t then some 0 else (findSub rest w).map (· + 1)

/-- `_make_snippet` (keyword_match.py): ±80-character window around the first
occurrence of the keyword, with ellipses at clipped ends. -/
def make_snippet (text keyword : String) : String :=
  match findSub text.data (pyLower keyword).data with
  | none => ⟨text.data.take 160⟩ ++ "..."
  | some i =>
    let start := i - 80
    let stop := min (i + keyword.data.length + 80) text.data.length
    (if 0 < start then "..." else "") ++ (⟨(text.data.drop start).take (stop - start)⟩ : String) ++
      (if stop < text.data.length then "..." else "")

/-- Python `set.update`: add each element of `l` not already present. -/
def unionL (acc l : List String) : List String := l.foldl addAlt acc

/-- One page of `score_keyword_relevance`'s loop: skip pages with no include
match; otherwise score the newly seen matches, record evidence, and fold the
page's excluded hits into the accumulated set. -/
def scanStep (inc exc : List String) (st : ScanSt) (page : String × String) : ScanSt :=
  let res := match_keywords page.2 inc exc
  if res.matched = [] then st
  else
    let pageHits := sortStr (res.matched.filter fun k => !st.allMatched.contains k)
    let st1 :=
      if pageHits.isEmpty then st
      else
        { st with
          total := st.total + 10 * (pageHits.length : Int),
          allMatched := st.allMatched ++ pageHits,
          evidence := st.evidence ++
            [⟨page.1, make_snippet page.2 (pageHits.headD ""), pageHits⟩] }
    { st1 with allExcluded := unionL st1.allExcluded res.excluded }

/-- `score_keyword_relevance` (keyword_match.py). -/
def score_keyword_relevance (pages : List (String × String))
    (incl excl : List String) : ScoreRes :=
  let inc := expand_keywords incl
  let exc := expand_keywords excl
  let st := pages.foldl (scanStep inc exc) ⟨0, [], [], []⟩
  { score := max (st.total - 5 * (st.allExcluded.length : Int)) 0,
    evidence := st.evidence.take 5,
    matched_keywords := sortStr st.allMatched,
    excluded_keywords := sortStr st.allExcluded }

/-- `resolve_domain_from_url_or_domain` (keyword_match.py): accept a full URL
or bare domain; `urlparse(s).netloc` for a string carrying an http(s) scheme
is the text between `//` and the next `/`, `?` or `#`. A falsy input (absent
or empty) resolves to `none`. -/
def resolve_domain_from_url_or_domain (x : Option String) : Option String :=
  match x with
  | none => none
  | some s0 =>
    if s0 = "" then none
    else
      let s1 := pyStrip s0
      let s := if (pyLower s1).data.take 7 = "http://".data ∨
                  (pyLower s1).data.take 8 = "https://".data
               then s1 else "https://" ++ s1
      let afterScheme :=
        if (pyLower s).data.take 8 = "https://".data then s.data.drop 8 else s.data.drop 7
      let host := ⟨(afterScheme.takeWhile fun c => c ≠ '/' ∧ c ≠ '?' ∧ c ≠ '#').map asciiLower⟩
      some (if "www.".data.isPrefixOf (String.data host) then ⟨host.data.drop 4⟩ else host)

/-- Result shape of `flag_business`. -/
structure FlagRes where
  flag : Bool
  score : Int
  matched_keywords : List String
  excluded_keywords : List String
  evidence : List Evid
  domain : Option String
deriving DecidableEq, Repr

/-- `flag_business` (keyword_match.py). The network fetch `fetch_text_pages` is
modelled as an explicit function argument supplying the fetched
(url, visible-text) pages of a domain; an unresolvable (falsy) domain takes
the early negative-result return. -/
def flag_business (fetchPages : String → List (String × String))
    (company_name : String) (url_or_domain : Option String)
    (include_keywords exclude_keywords : List String) (threshold : Int) : FlagRes :=
  match resolve_domain_from_url_or_domain url_or_domain with
  | none => ⟨false, 0, [], [], [], none⟩
  | some d =>
    if d = "" then ⟨false, 0, [], [], [], none⟩
    else
      let scored := score_keyword_relevance (fetchPages d) include_keywords exclude_keywords
      ⟨decide (threshold ≤ scored.score), scored.score, scored.matched_keywords,
        scored.excluded_keywords, scored.evidence, some d⟩

/-! ### contacts.py -/

/-- Word characters of Python's regex `\b` boundary: `[a-zA-Z0-9_]`. -/
def isWordChar (c : Char) : Bool :=
  ('a' ≤ c ∧ c ≤ 'z') ∨ ('A' ≤ c ∧ c ≤ 'Z') ∨ ('0' ≤ c ∧ c ≤ '9') ∨ c = '_'

/-- `w` is a prefix of `s`, and when `needR` is set the position after it is a
word boundary (end of text or a non-word character); the literals used all end
in a word character, so that is exactly `\b` there. -/
def pfxB (needR : Bool) : List Char → List Char → Bool
  | [], s => !needR || (match s with | [] => true | c :: _ => !isWordChar c)
  | _ :: _, [] => false
  | x :: xs, y :: ys => x = y && pfxB needR xs ys

/-- `re.search` of a literal, optionally demanding a `\b` on the left and/or
right; `prev` is the character before the current position. The literals used
all begin with a word character, so the left `\b` is "start of text or
previous character not a word character". -/
def hasLitAux (needL needR : Bool) (w : List Char) (prev : Option Char) :
    List Char → Bool
  | [] => (!needL || (match prev with | none => true | some c => !isWordChar c))
            && pfxB needR w []
  | c :: rest =>
      ((!needL || (match prev with | none => true | some c0 => !isWordChar c0))
          && pfxB needR w (c :: rest))
        || hasLitAux needL needR w (some c) rest

/-- Search a literal somewhere in `t` with the requested boundary demands. -/
def hasLit (needL needR : Bool) (w : String) (t : List Char) : Bool :=
  hasLitAux needL needR w.data none t

/-- `\blit\b`. -/
def hasWord (w : String) (t : List Char) : Bool := hasLit true true w t

/-- `\blit` (no right boundary). -/
def hasLitL (w : String) (t : List Char) : Bool := hasLit true false w t

/-- Plain substring occurrence (regex literal with no boundary). -/
def hasSub (w : String) (t : List Char) : Bool := subOf w.data t

/-- The `.*sales\b` tail of the third target pattern: some later position
starts `sales` at a right word boundary, with no newline in the gap (regex `.`
does not match a newline). -/
def gapSales : List Char → Bool
  | [] => pfxB true "sales".data []
  | c :: rest => pfxB true "sales".data (c :: rest) || (c ≠ '\n' && gapSales rest)

/-- `\bvice president.*sales\b`: a left-bounded occurrence of
`vice president` followed, without an intervening newline, by `sales` at a
right boundary. -/
def vpSalesAux (prev : Option Char) : List Char → Bool
  | [] => false
  | c :: rest =>
      ((match prev with | none => true | some c0 => !isWordChar c0)
          && "vice president".data.isPrefixOf (c :: rest)
          && gapSales ((c :: rest).drop 14))
        || vpSalesAux (some c) rest

/-- Entry point of the previous search. -/
def vpSales (t : List Char) : Bool := vpSalesAux none t

/-- The five `_TARGET_PATTERNS` of contacts.py, hand-compiled from the regex
alternations (the optional groups only affect which witness matches, not
whether one exists). -/
def targetHits (t : List Char) : List Bool :=
  [ hasWord "ceo" t || hasWord "chief executive" t,
    hasWord "founder" t || hasWord "cofounder" t || hasWord "co-founder" t,
    hasWord "head of sales" t || hasWord "vp of sales" t || vpSales t ||
      hasWord "sales director" t || hasWord "global sales" t,
    hasWord "marketing manager" t || hasWord "head of marketing" t || hasWord "cmo" t ||
      hasWord "chief marketing" t || hasWord "marketing director" t,
    hasWord "head of procurement" t || hasWord "procurement manager" t ||
      hasWord "purchasing manager" t || hasWord "sourcing manager" t ||
      hasWord "category manager" t || hasWord "head of purchasing" t ]

/-- `_SENIORITY_WEIGHTS` (contacts.py), in source order. -/
def SENIORITY_WEIGHTS : List (String × Int) :=
  [("chief", 6), ("c-level", 6), ("cmo", 6), ("ceo", 10),
   ("vp", 5), ("vice president", 5),
   ("director", 4), ("head", 6), ("lead", 3),
   ("manager", 3), ("global", 2), ("senior", 2),
   ("founder", 8), ("cofounder", 7), ("co-founder", 7)]

/-- `_DEPT_WEIGHTS` (contacts.py), in source order. -/
def DEPT_WEIGHTS : List (String × Int) :=
  [("sales", 8), ("marketing", 6), ("procurement", 8), ("purchasing", 8),
   ("sourcing", 7), ("supply chain", 6), ("category", 5)]

/-- `_score_title` (contacts.py): +15 per target-role pattern hit, additive
seniority and department substring weights, −5 when a junior denylist term is
contained. -/
def score_title (title : String) : Int :=
  if title = "" then 0
  else
    let t := (pyLower title).data
    let s1 := (targetHits t).foldl (fun acc b => if b then acc + 15 else acc) 0
    let s2 := SENIORITY_WEIGHTS.foldl
      (fun acc kw => if subOf kw.1.data t then acc + kw.2 else acc) s1
    let s3 := DEPT_WEIGHTS.foldl
      (fun acc kw => if subOf kw.1.data t then acc + kw.2 else acc) s2
    if ["intern", "assistant", "coordinator", "student", "trainee"].any
        (fun w => subOf w.data t)
    then s3 - 5 else s3

/-- Python values stored in a contact dictionary. -/
inductive PyVal where
  | vstr (s : String)
  | vint (n : Int)
deriving DecidableEq, Repr

/-- Insertion-ordered dictionary with unique keys (a Python `dict`). -/
abbrev Dict := List (String × PyVal)

/-- `d.get(k)`: the value at key `k` (a Python dict holds each key once, so
first-entry lookup is exact). -/
def dictGet (d : Dict) (k : String) : Option PyVal :=
  match d with
  | [] => none
  | p :: ps => if p.1 = k then some p.2 else dictGet ps k

/-- `d.get(k) or ""` on a well-typed contact (string-valued field). -/
def getStrD (d : Dict) (k : String) : String :=
  match dictGet d k with
  | some (.vstr s) => s
  | _ => ""

/-- `d.get(k, dflt)` for an integer field. -/
def getIntD (d : Dict) (k : String) (dflt : Int) : Int :=
  match dictGet d k with
  | some (.vint n) => n
  | _ => dflt

/-- `d[k] = v`: update the key's entry in place when it exists, else append
the new entry at the end (Python dict assignment, keys being unique). -/
def dictSet (d : Dict) (k : String) (v : PyVal) : Dict :=
  match d with
  | [] => [(k, v)]
  | p :: ps => if p.1 = k then (k, v) :: ps else p :: dictSet ps k v

/-- The exec-alias test of `filter_contacts_by_title`:
`em.startswith(("ceo@", "founder@", ...))` on the lowercased email. -/
def aliasHit (em : String) : Bool :=
  ["ceo@", "founder@", "sales@", "marketing@", "procurement@", "purchasing@",
   "sourcing@"].any fun p => p.data.isPrefixOf em.data

/-- Title score plus the +2 alias nudge, as computed inside the loop of
`filter_contacts_by_title`. -/
def contactScore (c : Dict) : Int :=
  let title := pyStrip (getStrD c "title")
  let score := score_title title
  let em := pyLower (getStrD c "email")
  if aliasHit em then score + 2 else score

/-- One iteration of the scoring-and-filtering loop of
`filter_contacts_by_title`: keep a `dict(c)` copy with a `score` entry
whenever the score reaches the minimum. -/
def scoreStep (min_score : Int) (acc : List Dict) (c : Dict) : List Dict :=
  let score := contactScore c
  if min_score ≤ score then acc ++ [dictSet c "score" (.vint score)] else acc

/-- The scoring-and-filtering loop of `filter_contacts_by_title`. -/
def scoredContacts (contacts : List Dict) (min_score : Int) : List Dict :=
  contacts.foldl (scoreStep min_score) []

/-- The case-insensitive email key used by `_dedupe_by_email`:
`(c.get("email") or "").lower().strip()`. -/
def emailKey (c : Dict) : String := pyStrip (pyLower (getStrD c "email"))

/-- One iteration of `_dedupe_by_email`'s loop. -/
def dedupeStep (p : List String × List Dict) (c : Dict) : List String × List Dict :=
  let em := emailKey c
  if em = "" ∨ em ∈ p.1 then p else (p.1 ++ [em], p.2 ++ [c])

/-- `_dedupe_by_email` (contacts.py): drop empty-email entries and later
duplicates of an already seen email key, first occurrence winning. -/
def dedupe_by_email (contacts : List Dict) : List Dict :=
  (contacts.foldl dedupeStep ([], [])).2

/-- Stable descending insertion by `x.get("score", 0)`: a later element goes
after every earlier element with an equal or larger score, which is exactly
Python's stable `sort(key=..., reverse=True)`. -/
def insDesc (a : Dict) : List Dict → List Dict
  | [] => [a]
  | b :: bs => if getIntD a "score" 0 ≤ getIntD b "score" 0
               then b :: insDesc a bs else a :: b :: bs

/-- `scored.sort(key=lambda x: x.get("score", 0), reverse=True)`. -/
def sortScored (l : List Dict) : List Dict := l.foldl (fun acc c => insDesc c acc) []

/-- `filter_contacts_by_title` (contacts.py): score, threshold, de-duplicate by
email, sort descending by score, truncate to the top `top_n`. -/
def filter_contacts_by_title (contacts : List Dict) (top_n : Nat) (min_score : Int) :
    List Dict :=
  (sortScored (dedupe_by_email (scoredContacts contacts min_score))).take top_n

/-! ### swot.py -/

/-- `series [a-z]\b` (first pattern of swot.py): `series ` followed by one
letter standing at a right word boundary. -/
def seriesAZ : List Char → Bool
  | [] => false
  | c :: rest =>
      ("series ".data.isPrefixOf (c :: rest)
        && (match (c :: rest).drop 7 with
            | d :: r2 => ('a' ≤ d && d ≤ 'z')
                && (match r2 with | [] => true | e :: _ => !isWordChar e)
            | [] => false))
      || seriesAZ rest

/-- `_tag_for_title` (swot.py): first-match-wins evaluation of the ordered
`_PATTERNS` list on the lowercased title. Each regex is hand-compiled into
boundary/substring tests; optional groups (`raises?`, `launch(es|ed)?`,
`fine(d)?`, `recall(s|ed)?`, `expands?`, `layoffs?`) only affect which witness
matches, not whether one exists, so they reduce to their mandatory stem.
Note `misses?` denotes the stem `misse` with an optional final `s`. -/
def tag_for_title (title : String) : Option String :=
  let t := (pyLower title).data
  if hasLitL "raise" t || hasSub "raised" t || hasSub "funding" t ||
      hasSub "financing" t || seriesAZ t then some "funding"
  else if hasLitL "acquire" t || hasSub "acquired" t || hasSub "acquisition" t ||
      hasSub "merger" t || hasSub "merges with" t || hasSub "takeover" t then some "mna"
  else if hasLitL "partnership" t || hasSub "partners with" t ||
      hasSub "collaborates" t || hasSub "collaboration" t || hasSub "alliance" t then
    some "partner"
  else if hasLitL "launch" t || hasSub "introduces" t || hasSub "introduced" t ||
      hasSub "rolls out" t || hasSub "unveils" t || hasSub "unveiled" t then some "launch"
  else if hasLitL "expand" t || hasSub "expansion" t || hasSub "opens new" t ||
      hasSub "new office" t || hasSub "new plant" t || hasSub "new factory" t ||
      hasSub "new facility" t || hasSub "new market" t then some "expansion"
  else if hasLitL "record revenue" t || hasLitL "record profit" t ||
      hasLitL "record growth" t || hasSub "beat expectations" t ||
      hasSub "beats expectations" t || hasSub "beat estimates" t ||
      hasSub "beats estimates" t then some "strong_results"
  else if hasLitL "layoff" t || hasSub "cuts jobs" t || hasSub "job cuts" t ||
      hasSub "workforce reduction" t then some "layoffs"
  else if hasWord "loss" t || hasWord "decline" t || hasWord "misse estimates" t ||
      hasWord "misses estimates" t || hasWord "misse expectations" t ||
      hasWord "misses expectations" t then some "weak_results"
  else if hasLitL "lawsuit" t || hasSub "sued" t || hasSub "litigation" t ||
      hasSub "class action" t then some "lawsuit"
  else if hasLitL "fine" t || hasSub "penalty" t || hasSub "sanction" t then
    some "regulatory"
  else if hasLitL "recall" t || hasSub "safety issue" t || hasSub "defect" t then
    some "recall"
  else if hasLitL "data breach" t || hasSub "cyberattack" t || hasSub "ransomware" t ||
      hasSub "security incident" t then some "security"
  else if hasLitL "supply chain disruption" t || hasSub "shortage" t ||
      hasSub "strike" t || hasSub "union action" t then some "supply"
  else none

/-- One of the four SWOT buckets (the string keys of swot.py's result dict). -/
inductive Bucket where
  | strengths
  | weaknesses
  | opportunities
  | threats
deriving DecidableEq, Repr

/-- `_TAG_TO_SWOT` (swot.py): primary bucket and optional secondary bucket. -/
def TAG_TO_SWOT : List (String × (Option Bucket × Option Bucket)) :=
  [("funding", (some .strengths, some .opportunities)),
   ("mna", (some .strengths, some .opportunities)),
   ("partner", (some .strengths, some .opportunities)),
   ("launch", (some .strengths, some .opportunities)),
   ("expansion", (some .opportunities, some .strengths)),
   ("strong_results", (some .strengths, none)),
   ("layoffs", (some .weaknesses, some .threats)),
   ("weak_results", (some .weaknesses, none)),
   ("lawsuit", (some .threats, some .weaknesses)),
   ("regulatory", (some .threats, some .weaknesses)),
   ("recall", (some .weaknesses, some .threats)),
   ("security", (some .threats, some .weaknesses)),
   ("supply", (some .threats, some .weaknesses))]

/-- One input record of `generate_swot_from_news` (the `summary` field is
never read). -/
structure NewsItem where
  kind : Option String
  title : Option String
  url : Option String
  date : Option String
deriving DecidableEq, Repr

/-- The four bucket lists returned by `generate_swot_from_news`. -/
structure SwotRes where
  strengths : List String
  weaknesses : List String
  opportunities : List String
  threats : List String
deriving DecidableEq, Repr

/-- `swot[bucket]`. -/
def getB (s : SwotRes) : Bucket → List String
  | .strengths => s.strengths
  | .weaknesses => s.weaknesses
  | .opportunities => s.opportunities
  | .threats => s.threats

/-- `swot[bucket].append(line)`. -/
def appB (s : SwotRes) (b : Bucket) (line : String) : SwotRes :=
  match b with
  | .strengths => { s with strengths := s.strengths ++ [line] }
  | .weaknesses => { s with weaknesses := s.weaknesses ++ [line] }
  | .opportunities => { s with opportunities := s.opportunities ++ [line] }
  | .threats => { s with threats := s.threats ++ [line] }

/-- `n.get(key) or ""`. -/
def getOr (x : Option String) : String := x.getD ""

/-- The per-item decision of `generate_swot_from_news`'s loop: derive a tag
from `kind` when possible, else from the title; look up the bucket pair; build
the formatted line. Returns `none` when the item is skipped (no tag, or no
primary bucket). -/
def swotDecide (n : NewsItem) : Option (Bucket × Option Bucket × String) :=
  let title : String := ⟨(getOr n.title).data.take 240⟩
  let url := getOr n.url
  let date := getOr n.date
  let kind := (pyLower (getOr n.kind)).data
  let tagK : Option String :=
    if hasSub "fund" kind then some "funding"
    else if hasSub "m&a" kind ∨ hasSub "acquisition" kind then some "mna"
    else if hasSub "expansion" kind then some "expansion"
    else none
  let tag := match tagK with
    | some tg => some tg
    | none => tag_for_title title
  match tag with
  | none => none
  | some tg =>
    match (TAG_TO_SWOT.lookup tg).getD (none, none) with
    | (none, _) => none
    | (some pri, sec) =>
      some (pri, sec, title ++ (if date ≠ "" then " (" ++ date ++ ")" else "") ++
        (if url ≠ "" then " — " ++ url else ""))

/-- One iteration of `generate_swot_from_news`'s loop over news items: skip
globally seen lines; append to the primary bucket when under the cap and
independently to a distinct secondary bucket when under its cap. -/
def swotStep (cap : Nat) (acc : SwotRes × List String) (n : NewsItem) :
    SwotRes × List String :=
  match swotDecide n with
  | none => acc
  | some (pri, sec, line) =>
    if line ∈ acc.2 then acc
    else
      let swot1 := if (getB acc.1 pri).length < cap then appB acc.1 pri line else acc.1
      let swot2 := match sec with
        | some s2 =>
          if s2 ≠ pri ∧ (getB swot1 s2).length < cap then appB swot1 s2 line else swot1
        | none => swot1
      (swot2, acc.2 ++ [line])

/-- `generate_swot_from_news` (swot.py). The company argument is unused by the
source as well. -/
def generate_swot_from_news (company : String) (news : List NewsItem)
    (max_items_per_bucket : Nat) : SwotRes :=
  (news.foldl (swotStep max_items_per_bucket) (⟨[], [], [], []⟩, [])).1

/-! ### A store-passing rendering of `filter_contacts_by_title`

To settle the frame/mutation claim, the same function is rendered over an
explicit object store: dictionaries live in a store (`List Dict`), the input
is a list of references into it, `dict(c)` allocates a fresh object holding a
copy, and `c2["score"] = score` writes that fresh object. Every other
operation only reads. -/

/-- Object store of contact dictionaries; a reference is an index. -/
abbrev Store := List Dict

/-- One loop iteration of `filter_contacts_by_title` under the store
semantics: read the contact through its reference, score it, and on success
allocate `dict(c)` with the `score` entry written, collecting the fresh
reference. -/
def fcbtScoreStep (min_score : Int) (acc : Store × List Nat) (r : Nat) :
    Store × List Nat :=
  let c := acc.1.getD r []
  let score := contactScore c
  if min_score ≤ score then
    (acc.1 ++ [dictSet c "score" (.vint score)], acc.2 ++ [acc.1.length])
  else acc

/-- One iteration of `_dedupe_by_email` over references. -/
def dedupeRefStep (store : Store) (p : List String × List Nat) (r : Nat) :
    List String × List Nat :=
  let em := emailKey (store.getD r [])
  if em = "" ∨ em ∈ p.1 then p else (p.1 ++ [em], p.2 ++ [r])

/-- `_dedupe_by_email` over references (reads the store, writes nothing). -/
def dedupeRefs (store : Store) (refs : List Nat) : List Nat :=
  (refs.foldl (dedupeRefStep store) ([], [])).2

/-- Stable descending insertion of a reference by stored score. -/
def insDescRef (store : Store) (a : Nat) : List Nat → List Nat
  | [] => [a]
  | b :: bs =>
      if getIntD (store.getD a []) "score" 0 ≤ getIntD (store.getD b []) "score" 0
      then b :: insDescRef store a bs else a :: b :: bs

/-- The stable descending sort over references. -/
def sortRefs (store : Store) (l : List Nat) : List Nat :=
  l.foldl (fun acc r => insDescRef store r acc) []

/-- `filter_contacts_by_title` under the store semantics: returns the final
store and the references of the result list. -/
def filter_contacts_by_title_st (store : Store) (contacts : List Nat)
    (top_n : Nat) (min_score : Int) : Store × List Nat :=
  let p := contacts.foldl (fcbtScoreStep min_score) (store, [])
  let deduped := dedupeRefs p.1 p.2
  (p.1, (sortRefs p.1 deduped).take top_n)

/-! ## Generic lemmas about the set/sort models -/

theorem insSorted_perm (a : String) (l : List String) : (insSorted a l).Perm (a :: l) := by
  induction l with
  | nil => exact List.Perm.refl _
  | cons b bs ih =>
    simp only [insSorted]
    split
    · exact (ih.cons b).trans (List.Perm.swap a b bs)
    · exact List.Perm.refl _

theorem sortStr_perm (l : List String) : (sortStr l).Perm l := by
  induction l with
  | nil => exact List.Perm.refl _
  | cons a as ih => exact (insSorted_perm a (sortStr as)).trans (ih.cons a)

theorem mem_sortStr {a : String} {l : List String} : a ∈ sortStr l ↔ a ∈ l :=
  (sortStr_perm l).mem_iff

theorem length_sortStr (l : List String) : (sortStr l).length = l.length :=
  (sortStr_perm l).length_eq

theorem sortStr_nil : sortStr [] = [] := rfl

theorem mem_addAlt {l : List String} {a b : String} :
    b ∈ addAlt l a ↔ b ∈ l ∨ b = a := by
  unfold addAlt
  split
  · next h => constructor
              · exact fun hb => Or.inl hb
              · rintro (hb | rfl) <;> [exact hb; exact h]
  · simp [List.mem_append]

theorem sub_addAlt (l : List String) (a : String) : l ⊆ addAlt l a := by
  intro x hx
  exact mem_addAlt.mpr (Or.inl hx)

theorem nodup_addAlt {l : List String} (a : String) (h : l.Nodup) :
    (addAlt l a).Nodup := by
  unfold addAlt
  split
  · exact h
  · next ha => simpa [List.nodup_append] using ⟨h, ha⟩

theorem mem_unionL {acc l : List String} {b : String} :
    b ∈ unionL acc l ↔ b ∈ acc ∨ b ∈ l := by
  induction l generalizing acc with
  | nil => simp [unionL]
  | cons x xs ih =>
    show b ∈ unionL (addAlt acc x) xs ↔ _
    rw [ih, mem_addAlt]
    simp only [List.mem_cons]
    tauto

theorem sub_unionL (acc l : List String) : acc ⊆ unionL acc l :=
  fun _ hx => mem_unionL.mpr (Or.inl hx)

theorem nodup_unionL {acc : List String} (l : List String) (h : acc.Nodup) :
    (unionL acc l).Nodup := by
  induction l generalizing acc with
  | nil => exact h
  | cons x xs ih => exact ih (nodup_addAlt x h)

theorem unionL_eq_self {acc l : List String} (h : ∀ x ∈ l, x ∈ acc) :
    unionL acc l = acc := by
  induction l generalizing acc with
  | nil => rfl
  | cons x xs ih =>
    show unionL (addAlt acc x) xs = acc
    have hx : addAlt acc x = acc := by
      unfold addAlt
      exact if_pos (h x (List.mem_cons_self x xs))
    rw [hx]
    exact ih fun y hy => h y (List.mem_cons_of_mem x hy)

theorem mem_dedupStr {l : List String} {b : String} : b ∈ dedupStr l ↔ b ∈ l := by
  show b ∈ unionL [] l ↔ b ∈ l
  rw [mem_unionL]
  simp

theorem nodup_dedupStr (l : List String) : (dedupStr l).Nodup :=
  nodup_unionL l List.nodup_nil

/-! ## C5: end-to-end example -/

set_option maxRecDepth 100000 in
/-- C5: on the single page `("https://x.com", "we are an ai saas platform")`
with include keywords `["ai", "saas"]` and no excludes,
`score_keyword_relevance` returns score 20, matched keywords
`["ai", "saas"]`, and exactly one evidence entry, whose url is
`"https://x.com"`. -/
theorem C5_end_to_end :
    (score_keyword_relevance [("https://x.com", "we are an ai saas platform")]
        ["ai", "saas"] []).score = 20 ∧
    (score_keyword_relevance [("https://x.com", "we are an ai saas platform")]
        ["ai", "saas"] []).matched_keywords = ["ai", "saas"] ∧
    (score_keyword_relevance [("https://x.com", "we are an ai saas platform")]
        ["ai", "saas"] []).evidence.map Evid.url = ["https://x.com"] := by
  decide

/-! ## C7: unresolvable domain -/

/-- C7: whenever the domain resolution of `flag_business` comes back falsy
(no input, or an input resolving to the empty host), the function returns the
negative decision `flag = false`, `score = 0`, with empty matched, excluded
and evidence lists, as a normal result. -/
theorem C7_unresolvable_domain (fetchPages : String → List (String × String))
    (company_name : String) (url_or_domain : Option String)
    (incKs excKs : List String) (threshold : Int)
    (h : resolve_domain_from_url_or_domain url_or_domain = none ∨
         resolve_domain_from_url_or_domain url_or_domain = some "") :
    flag_business fetchPages company_name url_or_domain incKs excKs threshold =
      { flag := false, score := 0, matched_keywords := [], excluded_keywords := [],
        evidence := [], domain := none } := by
  unfold flag_business
  rcases h with h | h <;> rw [h]
  simp

theorem C7_witness :
    flag_business (fun _ => []) "Acme" none [] [] 10 =
      { flag := false, score := 0, matched_keywords := [], excluded_keywords := [],
        evidence := [], domain := none } :=
  C7_unresolvable_domain (fun _ => []) "Acme" none [] [] 10 (Or.inl rfl)

/-! ## C3: exclude keywords get no fuzzy fallback -/

set_option maxRecDepth 100000 in
/-- C3 counterexample: the exclude keyword `"abcd"` against the text
`"xx abc yy"` is not a verbatim substring, while its longest common run with
the text (`"abc"`, length 3) meets the 75 % threshold — so the claimed dual
logic would report it.  The code reports nothing: the exclude side is
substring-only. -/
theorem C3_counterexample :
    subOf "abcd".data (pyNormalize "xx abc yy").data = false ∧
    fuzzyHit "abcd".data (pyNormalize "xx abc yy").data = true ∧
    (match_keywords "xx abc yy" [] ["abcd"]).excluded = [] := by
  decide

/-! ## C1 / C4 counterexamples for the scorer -/

set_option maxRecDepth 100000 in
/-- C1 counterexample: the exclude keyword `"spam"` occurs verbatim on page
`"u2"`, but that page has no matched include keyword, so the code's
`continue` skips it entirely: the result carries no excluded keyword and no
penalty (score stays 10), against the claim that exclusion hits are
accumulated from every page. -/
theorem C1_counterexample :
    subOf "spam".data (pyNormalize "spam only").data = true ∧
    score_keyword_relevance [("u1", "alpha here"), ("u2", "spam only")]
        ["alpha"] ["spam"] =
      { score := 10, evidence := [⟨"u1", "alpha here", ["alpha"]⟩],
        matched_keywords := ["alpha"], excluded_keywords := [] } := by
  decide

set_option maxRecDepth 100000 in
/-- C4 counterexample: appending the page `("v", "beta bad1 bad2 bad3")` —
which matches the include keyword `"beta"`, not matched by the original
single page — drops the score from 10 to 5, because the new page also
introduces three excluded-keyword hits worth −15 against the +10 of the new
match. -/
theorem C4_counterexample :
    "beta" ∈ (match_keywords "beta bad1 bad2 bad3"
        (expand_keywords ["alpha", "beta"])
        (expand_keywords ["bad1", "bad2", "bad3"])).matched ∧
    "beta" ∉ (score_keyword_relevance [("u", "alpha here")]
        ["alpha", "beta"] ["bad1", "bad2", "bad3"]).matched_keywords ∧
    (score_keyword_relevance ([("u", "alpha here")] ++ [("v", "beta bad1 bad2 bad3")])
        ["alpha", "beta"] ["bad1", "bad2", "bad3"]).score <
      (score_keyword_relevance [("u", "alpha here")]
        ["alpha", "beta"] ["bad1", "bad2", "bad3"]).score := by
  decide

/-! ## C2 counterexample -/

set_option maxRecDepth 100000 in
/-- C2 counterexample: a single funding item produces one formatted line that
is appended to both its primary bucket (Strengths) and its secondary bucket
(Opportunities), so the same line occurs twice across the four buckets. -/
theorem C2_counterexample :
    (generate_swot_from_news "Acme" [⟨some "funding", some "t", none, none⟩] 5).strengths
        = ["t"] ∧
    (generate_swot_from_news "Acme" [⟨some "funding", some "t", none, none⟩] 5).opportunities
        = ["t"] := by
  decide

/-! ## C3 amended: membership characterization of `match_keywords` -/

theorem mem_fuzzyFold {t : List Char} {inc : List String} {acc : List String} {b : String} :
    b ∈ inc.foldl (fun acc k => if fuzzyHit k.data t then addAlt acc k else acc) acc ↔
      b ∈ acc ∨ (b ∈ inc ∧ fuzzyHit b.data t = true) := by
  induction inc generalizing acc with
  | nil => simp
  | cons x xs ih =>
    simp only [List.foldl_cons, ih, List.mem_cons]
    by_cases hx : fuzzyHit x.data t = true
    · rw [if_pos hx, mem_addAlt]
      constructor
      · rintro ((h | rfl) | h)
        · exact Or.inl h
        · exact Or.inr ⟨Or.inl rfl, hx⟩
        · exact Or.inr ⟨Or.inr h.1, h.2⟩
      · rintro (h | ⟨(rfl | h), hb⟩)
        · exact Or.inl (Or.inl h)
        · exact Or.inl (Or.inr rfl)
        · exact Or.inr ⟨h, hb⟩
    · rw [if_neg hx]
      constructor
      · rintro (h | h)
        · exact Or.inl h
        · exact Or.inr ⟨Or.inr h.1, h.2⟩
      · rintro (h | ⟨(rfl | h), hb⟩)
        · exact Or.inl h
        · exact absurd hb hx
        · exact Or.inr ⟨h, hb⟩

theorem nodup_fuzzyFold {t : List Char} {inc : List String} {acc : List String}
    (h : acc.Nodup) :
    (inc.foldl (fun acc k => if fuzzyHit k.data t then addAlt acc k else acc) acc).Nodup := by
  induction inc generalizing acc with
  | nil => exact h
  | cons x xs ih =>
    simp only [List.foldl_cons]
    split
    · exact ih (nodup_addAlt x h)
    · exact ih h

theorem match_keywords_matched_nodup (text : String) (incKs excKs : List String) :
    (match_keywords text incKs excKs).matched.Nodup := by
  show (sortStr _).Nodup
  exact (sortStr_perm _).nodup_iff.mpr (nodup_fuzzyFold (nodup_dedupStr _))

/-- C3 corrected: `match_keywords` reports an exclude keyword precisely when
the lowercased keyword occurs verbatim as a substring of the normalized text —
the fuzzy fallback applies only to the include side, where a keyword is
matched precisely when it occurs verbatim or its longest-common-run ratio
reaches 75 %. -/
theorem C3_exclude_substring_only (text : String) (incKs excKs : List String) :
    (∀ k, k ∈ (match_keywords text incKs excKs).excluded ↔
      k ∈ keepLower excKs ∧ subOf k.data (pyNormalize text).data = true) ∧
    (∀ k, k ∈ (match_keywords text incKs excKs).matched ↔
      k ∈ keepLower incKs ∧ (subOf k.data (pyNormalize text).data = true ∨
        fuzzyHit k.data (pyNormalize text).data = true)) := by
  constructor
  · intro k
    show k ∈ sortStr _ ↔ _
    rw [mem_sortStr, mem_dedupStr, List.mem_filter]
  · intro k
    show k ∈ sortStr _ ↔ _
    rw [mem_sortStr, mem_fuzzyFold, mem_dedupStr, List.mem_filter]
    tauto

/-! ## Scan-state lemmas for `score_keyword_relevance` -/

theorem scanStep_allExcluded (inc exc : List String) (st : ScanSt) (p : String × String)
    (k : String) :
    k ∈ (scanStep inc exc st p).allExcluded ↔
      k ∈ st.allExcluded ∨ ((match_keywords p.2 inc exc).matched ≠ [] ∧
        k ∈ (match_keywords p.2 inc exc).excluded) := by
  by_cases h : (match_keywords p.2 inc exc).matched = []
  · simp [scanStep, h]
  · simp only [scanStep, if_neg h]
    split <;> simp [mem_unionL, h]

theorem scan_allExcluded (inc exc : List String) (pages : List (String × String)) :
    ∀ (st0 : ScanSt) (k : String),
      k ∈ (pages.foldl (scanStep inc exc) st0).allExcluded ↔
        k ∈ st0.allExcluded ∨ ∃ p ∈ pages,
          (match_keywords p.2 inc exc).matched ≠ [] ∧
            k ∈ (match_keywords p.2 inc exc).excluded := by
  induction pages with
  | nil => simp
  | cons q qs ih =>
    intro st0 k
    rw [List.foldl_cons, ih, scanStep_allExcluded]
    constructor
    · rintro ((h | h) | ⟨p, hp, hq⟩)
      · exact Or.inl h
      · exact Or.inr ⟨q, List.mem_cons_self q qs, h⟩
      · exact Or.inr ⟨p, List.mem_cons_of_mem q hp, hq⟩
    · rintro (h | ⟨p, hp, hq⟩)
      · exact Or.inl (Or.inl h)
      · rcases List.mem_cons.mp hp with rfl | hp'
        · exact Or.inl (Or.inr hq)
        · exact Or.inr ⟨p, hp', hq⟩

theorem contains_eq_mem (l : List String) (a : String) :
    l.contains a = true ↔ a ∈ l := by
  simp [List.contains, List.elem_iff]

theorem contains_eq_false (l : List String) (a : String) :
    l.contains a = false ↔ a ∉ l := by
  rw [← Bool.not_eq_true, contains_eq_mem]

theorem scanStep_inv (inc exc : List String) (st : ScanSt) (p : String × String)
    (h1 : st.total = 10 * (st.allMatched.length : Int)) (h2 : st.allMatched.Nodup) :
    (scanStep inc exc st p).total =
        10 * ((scanStep inc exc st p).allMatched.length : Int) ∧
      (scanStep inc exc st p).allMatched.Nodup := by
  by_cases h : (match_keywords p.2 inc exc).matched = []
  · simpa [scanStep, h] using ⟨h1, h2⟩
  · simp only [scanStep, if_neg h]
    split
    · exact ⟨h1, h2⟩
    · refine ⟨?_, ?_⟩
      · show st.total + 10 * _ = 10 * ((st.allMatched ++ _).length : Int)
        rw [h1, List.length_append]
        push_cast
        ring
      · show (st.allMatched ++ _).Nodup
        refine List.Nodup.append h2 ?_ ?_
        · exact (sortStr_perm _).nodup_iff.mpr
            ((match_keywords_matched_nodup _ _ _).filter _)
        · intro x hx hx'
          have := (List.mem_filter.mp (mem_sortStr.mp hx')).2
          rw [Bool.not_eq_eq_eq_not, Bool.not_true] at this
          exact absurd ((contains_eq_mem _ _).mpr hx)
            (by simp only [this]; exact Bool.false_ne_true)

theorem scan_inv (inc exc : List String) (pages : List (String × String)) :
    ∀ st0 : ScanSt, st0.total = 10 * (st0.allMatched.length : Int) →
      st0.allMatched.Nodup →
      (pages.foldl (scanStep inc exc) st0).total =
          10 * (((pages.foldl (scanStep inc exc) st0).allMatched.length : Int)) ∧
        (pages.foldl (scanStep inc exc) st0).allMatched.Nodup := by
  induction pages with
  | nil => intro st0 h1 h2; exact ⟨h1, h2⟩
  | cons q qs ih =>
    intro st0 h1 h2
    have := scanStep_inv inc exc st0 q h1 h2
    exact ih _ this.1 this.2

/-! ## C1 amended -/

/-- C1 corrected: `score_keyword_relevance` accumulates an excluded-keyword
hit only from pages that also have at least one matched include keyword (a
page without matches is skipped wholesale); the score is then 10 per unique
matched keyword minus 5 per unique accumulated excluded keyword, floored at
zero. -/
theorem C1_excluded_needs_matched_page (pages : List (String × String))
    (incKs excKs : List String) :
    (∀ k, k ∈ (score_keyword_relevance pages incKs excKs).excluded_keywords ↔
      ∃ p ∈ pages,
        (match_keywords p.2 (expand_keywords incKs) (expand_keywords excKs)).matched ≠ [] ∧
          k ∈ (match_keywords p.2 (expand_keywords incKs) (expand_keywords excKs)).excluded) ∧
    (score_keyword_relevance pages incKs excKs).score =
      max (10 * ((score_keyword_relevance pages incKs excKs).matched_keywords.length : Int)
        - 5 * ((score_keyword_relevance pages incKs excKs).excluded_keywords.length : Int)) 0 := by
  constructor
  · intro k
    show k ∈ sortStr _ ↔ _
    rw [mem_sortStr, scan_allExcluded]
    simp
  · have h := scan_inv (expand_keywords incKs) (expand_keywords excKs) pages
      ⟨0, [], [], []⟩ (by simp) List.nodup_nil
    simp only [score_keyword_relevance, length_sortStr]
    rw [h.1]

/-! ## C4 amended: monotonicity of the scorer -/

theorem scanStep_total_mono (inc exc : List String) (st : ScanSt) (p : String × String) :
    st.total ≤ (scanStep inc exc st p).total := by
  by_cases h : (match_keywords p.2 inc exc).matched = []
  · simp [scanStep, h]
  · simp only [scanStep, if_neg h]
    split
    · exact le_refl _
    · show st.total ≤ st.total + 10 *
        ((sortStr ((match_keywords p.2 inc exc).matched.filter
          fun k => !st.allMatched.contains k)).length : Int)
      have h0 : (0 : Int) ≤ ((sortStr ((match_keywords p.2 inc exc).matched.filter
          fun k => !st.allMatched.contains k)).length : Int) := Int.natCast_nonneg _
      omega

theorem scanStep_mem_mono (inc exc : List String) (st : ScanSt) (p : String × String) :
    st.allMatched ⊆ (scanStep inc exc st p).allMatched ∧
      st.allExcluded ⊆ (scanStep inc exc st p).allExcluded := by
  by_cases h : (match_keywords p.2 inc exc).matched = []
  · simp [scanStep, h]
  · simp only [scanStep, if_neg h]
    split
    · exact ⟨fun _ h => h, sub_unionL _ _⟩
    · constructor
      · intro x hx
        show x ∈ st.allMatched ++ _
        exact List.mem_append_left _ hx
      · exact sub_unionL _ _

theorem scan_mem_mono (inc exc : List String) (pages : List (String × String)) :
    ∀ st0 : ScanSt,
      st0.allMatched ⊆ (pages.foldl (scanStep inc exc) st0).allMatched ∧
        st0.allExcluded ⊆ (pages.foldl (scanStep inc exc) st0).allExcluded := by
  induction pages with
  | nil => exact fun st0 => ⟨fun _ h => h, fun _ h => h⟩
  | cons q qs ih =>
    intro st0
    have h1 := scanStep_mem_mono inc exc st0 q
    have h2 := ih (scanStep inc exc st0 q)
    exact ⟨h1.1.trans h2.1, h1.2.trans h2.2⟩

theorem scanStep_absorb (inc exc : List String) (st : ScanSt) (p : String × String) :
    (match_keywords p.2 inc exc).matched ⊆ (scanStep inc exc st p).allMatched ∧
      ((match_keywords p.2 inc exc).matched ≠ [] →
        (match_keywords p.2 inc exc).excluded ⊆ (scanStep inc exc st p).allExcluded) := by
  by_cases h : (match_keywords p.2 inc exc).matched = []
  · rw [h]
    exact ⟨List.nil_subset _, fun hc => absurd rfl hc⟩
  · constructor
    · intro k hk
      by_cases hmem : k ∈ st.allMatched
      · exact (scanStep_mem_mono inc exc st p).1 hmem
      · have hk' : k ∈ sortStr ((match_keywords p.2 inc exc).matched.filter
            fun k => !st.allMatched.contains k) := by
          rw [mem_sortStr, List.mem_filter]
          refine ⟨hk, ?_⟩
          rw [Bool.not_eq_true', contains_eq_false]
          exact hmem
        have hne : ¬ (sortStr ((match_keywords p.2 inc exc).matched.filter
            fun k => !st.allMatched.contains k)).isEmpty = true := by
          intro hc
          rw [List.isEmpty_iff] at hc
          rw [hc] at hk'
          exact absurd hk' (List.not_mem_nil k)
        simp only [scanStep, if_neg h, if_neg hne]
        show k ∈ st.allMatched ++ _
        exact List.mem_append_right _ hk'
    · intro _ k hk
      simp only [scanStep, if_neg h]
      split <;> exact mem_unionL.mpr (Or.inr hk)

theorem scanStep_fixed (inc exc : List String) (st : ScanSt) (p : String × String)
    (hm : (match_keywords p.2 inc exc).matched ⊆ st.allMatched)
    (he : (match_keywords p.2 inc exc).matched ≠ [] →
      (match_keywords p.2 inc exc).excluded ⊆ st.allExcluded) :
    scanStep inc exc st p = st := by
  by_cases h : (match_keywords p.2 inc exc).matched = []
  · simp [scanStep, h]
  · have hfil : (match_keywords p.2 inc exc).matched.filter
        (fun k => !st.allMatched.contains k) = [] := by
      rw [List.filter_eq_nil_iff]
      intro a ha
      rw [Bool.not_eq_true, Bool.not_eq_false', contains_eq_mem]
      exact hm ha
    have hemp : (sortStr ((match_keywords p.2 inc exc).matched.filter
        fun k => !st.allMatched.contains k)).isEmpty = true := by
      rw [hfil]
      rfl
    simp only [scanStep, if_neg h, hemp, if_true]
    rw [unionL_eq_self (he h)]

/-- C4 corrected: appending a page that introduces no new excluded-keyword hit
never decreases the score of `score_keyword_relevance` (in particular a page
with only new matches), and appending a copy of a page already in the list
leaves the whole result unchanged, so it never increases the score. The
original claim fails when the appended page carries new excluded hits, whose
−5 penalties can outweigh the +10 of its new match. -/
theorem C4_monotonicity (pages : List (String × String)) (p : String × String)
    (incKs excKs : List String) :
    ((∀ k ∈ (match_keywords p.2 (expand_keywords incKs) (expand_keywords excKs)).excluded,
        k ∈ (score_keyword_relevance pages incKs excKs).excluded_keywords) →
      (score_keyword_relevance pages incKs excKs).score ≤
        (score_keyword_relevance (pages ++ [p]) incKs excKs).score) ∧
    (p ∈ pages →
      score_keyword_relevance (pages ++ [p]) incKs excKs =
        score_keyword_relevance pages incKs excKs) := by
  constructor
  · intro hexc
    set inc := expand_keywords incKs with hinc
    set exc := expand_keywords excKs with hexc2
    have hfold : (pages ++ [p]).foldl (scanStep inc exc) ⟨0, [], [], []⟩ =
        scanStep inc exc (pages.foldl (scanStep inc exc) ⟨0, [], [], []⟩) p := by
      rw [List.foldl_append]
      rfl
    set st := pages.foldl (scanStep inc exc) ⟨0, [], [], []⟩ with hst
    have hsub : (match_keywords p.2 inc exc).excluded ⊆ st.allExcluded := by
      intro k hk
      have := hexc k hk
      show k ∈ st.allExcluded
      rw [show (score_keyword_relevance pages incKs excKs).excluded_keywords =
        sortStr st.allExcluded from rfl, mem_sortStr] at this
      exact this
    have hexcEq : (scanStep inc exc st p).allExcluded = st.allExcluded := by
      by_cases h : (match_keywords p.2 inc exc).matched = []
      · simp [scanStep, h]
      · simp only [scanStep, if_neg h]
        split <;> exact unionL_eq_self fun x hx => hsub hx
    show max (st.total - 5 * (st.allExcluded.length : Int)) 0 ≤
      max (((pages ++ [p]).foldl (scanStep inc exc) ⟨0, [], [], []⟩).total -
        5 * ((((pages ++ [p]).foldl (scanStep inc exc) ⟨0, [], [], []⟩).allExcluded.length : Int))) 0
    rw [hfold, hexcEq]
    exact max_le_max (by have := scanStep_total_mono inc exc st p; omega) (le_refl 0)
  · intro hp
    set inc := expand_keywords incKs with hinc
    set exc := expand_keywords excKs with hexc2
    obtain ⟨l1, l2, rfl⟩ := List.append_of_mem hp
    set stm := l1.foldl (scanStep inc exc) (⟨0, [], [], []⟩ : ScanSt) with hstm
    have habs := scanStep_absorb inc exc stm p
    have hmono := scan_mem_mono inc exc l2 (scanStep inc exc stm p)
    have hfin : (l1 ++ p :: l2).foldl (scanStep inc exc) ⟨0, [], [], []⟩ =
        l2.foldl (scanStep inc exc) (scanStep inc exc stm p) := by
      rw [List.foldl_append]
      rfl
    have hfix : scanStep inc exc
        ((l1 ++ p :: l2).foldl (scanStep inc exc) ⟨0, [], [], []⟩) p =
        (l1 ++ p :: l2).foldl (scanStep inc exc) ⟨0, [], [], []⟩ := by
      rw [hfin]
      exact scanStep_fixed inc exc _ p (habs.1.trans hmono.1)
        (fun h => (habs.2 h).trans hmono.2)
    have hstate : ((l1 ++ p :: l2) ++ [p]).foldl (scanStep inc exc)
        (⟨0, [], [], []⟩ : ScanSt) =
        (l1 ++ p :: l2).foldl (scanStep inc exc) ⟨0, [], [], []⟩ := by
      rw [List.foldl_append (scanStep inc exc) ⟨0, [], [], []⟩ (l1 ++ p :: l2) [p]]
      exact hfix
    simp only [score_keyword_relevance, ← hinc, ← hexc2]
    rw [hstate]

set_option maxRecDepth 100000 in
theorem C4_witness :
    ((score_keyword_relevance [("u", "alpha here")] ["alpha"] []).score ≤
      (score_keyword_relevance ([("u", "alpha here")] ++ [("u", "alpha here")])
        ["alpha"] []).score) ∧
    score_keyword_relevance ([("u", "alpha here")] ++ [("u", "alpha here")])
        ["alpha"] [] =
      score_keyword_relevance [("u", "alpha here")] ["alpha"] [] := by
  have h := C4_monotonicity [("u", "alpha here")] ("u", "alpha here") ["alpha"] []
  exact ⟨h.1 (by decide), h.2 (by decide)⟩

/-! ## C2 amended: SWOT bucket invariants -/

/-- Total number of occurrences of a line across the four buckets. -/
def totCount (s : SwotRes) (line : String) : Nat :=
  s.strengths.count line + s.weaknesses.count line +
    s.opportunities.count line + s.threats.count line

theorem getB_appB (s : SwotRes) (b b' : Bucket) (line : String) :
    getB (appB s b line) b' = if b' = b then getB s b' ++ [line] else getB s b' := by
  cases b <;> cases b' <;> simp [appB, getB]

theorem totCount_appB (s : SwotRes) (b : Bucket) (line l : String) :
    totCount (appB s b line) l = totCount s l + (if l = line then 1 else 0) := by
  cases b <;>
    simp [appB, totCount, List.count_append, List.count_singleton', eq_comm] <;>
    split <;> omega

theorem count_eq_zero_of_totCount (s : SwotRes) (l : String)
    (h : totCount s l = 0) (b : Bucket) : l ∉ getB s b := by
  rw [← List.count_eq_zero]
  unfold totCount at h
  cases b <;> simp [getB] <;> omega

/-- The loop invariant of `generate_swot_from_news`: every bucket is
duplicate-free and capped, unseen lines occur nowhere, and every line occurs
at most twice over the four buckets (once in a primary and once in a
secondary bucket). -/
def SwotInv (cap : Nat) (acc : SwotRes × List String) : Prop :=
  (∀ b : Bucket, (getB acc.1 b).Nodup ∧ (getB acc.1 b).length ≤ cap) ∧
    (∀ l, l ∉ acc.2 → totCount acc.1 l = 0) ∧ (∀ l, totCount acc.1 l ≤ 2)

theorem count_zero_in_bucket (s : SwotRes) (l : String) (h : totCount s l = 0)
    (b : Bucket) : l ∉ getB s b :=
  count_eq_zero_of_totCount s l h b

theorem swotStep_inv (cap : Nat) (acc : SwotRes × List String) (n : NewsItem)
    (h : SwotInv cap acc) : SwotInv cap (swotStep cap acc n) := by
  unfold swotStep
  cases hdec : swotDecide n with
  | none => exact h
  | some v =>
    obtain ⟨pri, sec, line⟩ := v
    by_cases hseen : line ∈ acc.2
    · simp only [if_pos hseen]
      exact h
    · simp only [if_neg hseen]
      obtain ⟨hbk, hunseen, hbound⟩ := h
      have hc0 : totCount acc.1 line = 0 := hunseen line hseen
      set swot1 := if (getB acc.1 pri).length < cap then appB acc.1 pri line
        else acc.1 with hswot1
      have h1bk : ∀ b : Bucket, (getB swot1 b).Nodup ∧ (getB swot1 b).length ≤ cap := by
        intro b
        rw [hswot1]
        split
        · next hlt =>
          rw [getB_appB]
          split
          · next hbpri =>
            subst hbpri
            constructor
            · refine List.Nodup.append (hbk b).1 (List.nodup_singleton line) ?_
              intro x hx hx'
              rw [List.mem_singleton] at hx'
              subst hx'
              exact count_zero_in_bucket acc.1 x hc0 b hx
            · rw [List.length_append, List.length_singleton]
              omega
          · exact hbk b
        · exact hbk b
      have h1line : totCount swot1 line ≤ 1 := by
        rw [hswot1]
        split
        · rw [totCount_appB, if_pos rfl]
          omega
        · omega
      have h1other : ∀ l, l ≠ line → totCount swot1 l = totCount acc.1 l := by
        intro l hl
        rw [hswot1]
        split
        · rw [totCount_appB, if_neg hl]
          omega
        · rfl
      have h1s2 : ∀ b : Bucket, b ≠ pri → getB swot1 b = getB acc.1 b := by
        intro b hb
        rw [hswot1]
        split
        · rw [getB_appB, if_neg hb]
        · rfl
      have hstep : ∀ swot2 : SwotRes,
          (∀ b : Bucket, (getB swot2 b).Nodup ∧ (getB swot2 b).length ≤ cap) →
          totCount swot2 line ≤ 2 →
          (∀ l, l ≠ line → totCount swot2 l = totCount acc.1 l) →
          SwotInv cap (swot2, acc.2 ++ [line]) := by
        intro swot2 hk hcnt hoth
        refine ⟨hk, ?_, ?_⟩
        · intro l hl
          rw [List.mem_append, List.mem_singleton] at hl
          push_neg at hl
          show totCount swot2 l = 0
          rw [hoth l hl.2]
          exact hunseen l hl.1
        · intro l
          show totCount swot2 l ≤ 2
          by_cases hl : l = line
          · subst hl
            exact hcnt
          · rw [hoth l hl]
            exact hbound l
      cases sec with
      | none => exact hstep swot1 h1bk (by omega) h1other
      | some s2 =>
        by_cases hcond : s2 ≠ pri ∧ (getB swot1 s2).length < cap
        · simp only [if_pos hcond]
          refine hstep (appB swot1 s2 line) ?_ ?_ ?_
          · intro b
            rw [getB_appB]
            split
            · next hbs2 =>
              subst hbs2
              constructor
              · refine List.Nodup.append (h1bk b).1 (List.nodup_singleton line) ?_
                intro x hx hx'
                rw [List.mem_singleton] at hx'
                subst hx'
                rw [h1s2 b hcond.1] at hx
                exact count_zero_in_bucket acc.1 x hc0 b hx
              · rw [List.length_append, List.length_singleton]
                have := hcond.2
                omega
            · exact h1bk b
          · rw [totCount_appB, if_pos rfl]
            omega
          · intro l hl
            rw [totCount_appB, if_neg hl, h1other l hl]
            omega
        · simp only [if_neg hcond]
          exact hstep swot1 h1bk (by omega) h1other

theorem swot_fold_inv (cap : Nat) (news : List NewsItem) :
    ∀ acc, SwotInv cap acc → SwotInv cap (news.foldl (swotStep cap) acc) := by
  induction news with
  | nil => exact fun acc h => h
  | cons n ns ih => exact fun acc h => ih _ (swotStep_inv cap acc n h)

/-- C2 corrected: each bucket of `buildSwot` is duplicate-free and capped, and
every formatted line appears at most twice across the four buckets — once in
its tag's primary bucket and once in its secondary bucket; the secondary
append makes the original claim's "never twice across all buckets" reading
false. -/
theorem C2_swot_buckets (company : String) (news : List NewsItem) (cap : Nat) :
    ((generate_swot_from_news company news cap).strengths.Nodup ∧
      (generate_swot_from_news company news cap).weaknesses.Nodup ∧
      (generate_swot_from_news company news cap).opportunities.Nodup ∧
      (generate_swot_from_news company news cap).threats.Nodup) ∧
    ((generate_swot_from_news company news cap).strengths.length ≤ cap ∧
      (generate_swot_from_news company news cap).weaknesses.length ≤ cap ∧
      (generate_swot_from_news company news cap).opportunities.length ≤ cap ∧
      (generate_swot_from_news company news cap).threats.length ≤ cap) ∧
    (∀ line, (generate_swot_from_news company news cap).strengths.count line +
        (generate_swot_from_news company news cap).weaknesses.count line +
        (generate_swot_from_news company news cap).opportunities.count line +
        (generate_swot_from_news company news cap).threats.count line ≤ 2) := by
  have h0 : SwotInv cap (⟨[], [], [], []⟩, ([] : List String)) := by
    refine ⟨fun b => ?_, fun l _ => ?_, fun l => ?_⟩
    · cases b <;> exact ⟨List.nodup_nil, Nat.zero_le cap⟩
    · rfl
    · show totCount ⟨[], [], [], []⟩ l ≤ 2
      simp [totCount]
  have h := swot_fold_inv cap news _ h0
  obtain ⟨hbk, _, hbound⟩ := h
  refine ⟨⟨(hbk .strengths).1, (hbk .weaknesses).1, (hbk .opportunities).1,
    (hbk .threats).1⟩,
    ⟨(hbk .strengths).2, (hbk .weaknesses).2, (hbk .opportunities).2,
    (hbk .threats).2⟩, hbound⟩

/-! ## C6 / C9: the contact ranker -/

theorem dedupe_aux (l : List Dict) :
    ∀ (seen : List String) (out : List Dict),
      ∃ s : List Dict,
        (l.foldl dedupeStep (seen, out)).2 = out ++ s ∧
        s.Sublist l ∧
        (∀ c ∈ s, emailKey c ≠ "" ∧ emailKey c ∉ seen) ∧
        List.Pairwise (fun a b => emailKey a ≠ emailKey b) s := by
  induction l with
  | nil => exact fun seen out => ⟨[], by simp, List.Sublist.refl _, by simp, List.Pairwise.nil⟩
  | cons c cs ih =>
    intro seen out
    by_cases h : emailKey c = "" ∨ emailKey c ∈ seen
    · have hstep : dedupeStep (seen, out) c = (seen, out) := by
        simp only [dedupeStep, if_pos h]
      obtain ⟨s, h1, h2, h3, h4⟩ := ih seen out
      refine ⟨s, ?_, h2.cons c, h3, h4⟩
      rw [List.foldl_cons, hstep, h1]
    · have hstep : dedupeStep (seen, out) c = (seen ++ [emailKey c], out ++ [c]) := by
        simp only [dedupeStep, if_neg h]
      push_neg at h
      obtain ⟨s, h1, h2, h3, h4⟩ := ih (seen ++ [emailKey c]) (out ++ [c])
      refine ⟨c :: s, ?_, h2.cons₂ c, ?_, ?_⟩
      · rw [List.foldl_cons, hstep, h1, List.append_assoc]
        rfl
      · intro x hx
        rcases List.mem_cons.mp hx with rfl | hx'
        · exact ⟨h.1, h.2⟩
        · have := h3 x hx'
          refine ⟨this.1, fun hc => this.2 (List.mem_append_left _ hc)⟩
      · refine List.Pairwise.cons ?_ h4
        intro x hx
        have := (h3 x hx).2
        intro hc
        exact this (List.mem_append_right _ (by rw [← hc]; exact List.mem_singleton_self _))

theorem dedupe_by_email_spec (l : List Dict) :
    ∃ s : List Dict, dedupe_by_email l = s ∧ s.Sublist l ∧
      (∀ c ∈ s, emailKey c ≠ "") ∧
      List.Pairwise (fun a b => emailKey a ≠ emailKey b) s := by
  obtain ⟨s, h1, h2, h3, h4⟩ := dedupe_aux l [] []
  exact ⟨s, by simpa [dedupe_by_email] using h1, h2, fun c hc => (h3 c hc).1, h4⟩

theorem insDesc_perm (a : Dict) (l : List Dict) : (insDesc a l).Perm (a :: l) := by
  induction l with
  | nil => exact List.Perm.refl _
  | cons b bs ih =>
    simp only [insDesc]
    split
    · exact (ih.cons b).trans (List.Perm.swap a b bs)
    · exact List.Perm.refl _

theorem sortScored_perm (l : List Dict) : (sortScored l).Perm l := by
  suffices h : ∀ (l acc : List Dict),
      (l.foldl (fun acc c => insDesc c acc) acc).Perm (acc ++ l) by
    simpa using h l []
  intro l
  induction l with
  | nil => simp
  | cons c cs ih =>
    intro acc
    rw [List.foldl_cons]
    refine (ih (insDesc c acc)).trans ?_
    refine (((insDesc_perm c acc).append_right cs).trans ?_)
    exact (List.perm_middle).symm

theorem scoreStep_length (ms : Int) (acc : List Dict) (c : Dict) :
    (scoreStep ms acc c).length ≤ acc.length + 1 := by
  simp only [scoreStep]
  split
  · simp
  · omega

theorem scoredContacts_length (contacts : List Dict) (ms : Int) :
    (scoredContacts contacts ms).length ≤ contacts.length := by
  suffices h : ∀ (l acc : List Dict),
      (l.foldl (scoreStep ms) acc).length ≤ acc.length + l.length by
    simpa using h contacts []
  intro l
  induction l with
  | nil => simp
  | cons c cs ih =>
    intro acc
    rw [List.foldl_cons]
    calc (cs.foldl (scoreStep ms) (scoreStep ms acc c)).length
        ≤ (scoreStep ms acc c).length + cs.length := ih _
      _ ≤ acc.length + 1 + cs.length := by
          have := scoreStep_length ms acc c
          omega
      _ = acc.length + (c :: cs).length := by simp only [List.length_cons]; omega

theorem dictGet_dictSet_ne (d : Dict) (k k' : String) (v : PyVal) (h : k' ≠ k) :
    dictGet (dictSet d k v) k' = dictGet d k' := by
  induction d with
  | nil =>
    show dictGet [(k, v)] k' = none
    simp only [dictGet, if_neg (fun hc : k = k' => h hc.symm)]
  | cons p ps ih =>
    show dictGet (if p.1 = k then (k, v) :: ps else p :: dictSet ps k v) k' = _
    split
    · next hp =>
      show (if k = k' then some v else dictGet ps k') = _
      rw [if_neg (fun hc : k = k' => h hc.symm)]
      show _ = (if p.1 = k' then some p.2 else dictGet ps k')
      rw [if_neg (by rw [hp]; exact fun hc : k = k' => h hc.symm)]
    · show (if p.1 = k' then some p.2 else dictGet (dictSet ps k v) k') = _
      show _ = (if p.1 = k' then some p.2 else dictGet ps k')
      split
      · rfl
      · exact ih

theorem emailKey_dictSet_score (c : Dict) (v : PyVal) :
    emailKey (dictSet c "score" v) = emailKey c := by
  unfold emailKey getStrD
  rw [dictGet_dictSet_ne c "score" "email" v (by decide)]

/-- C6: `filter_contacts_by_title` never returns two entries whose emails
agree after lowercasing, and its output length is at most
`min top_n contacts.length`. -/
theorem C6_rank_contacts (contacts : List Dict) (top_n : Nat) (min_score : Int) :
    List.Pairwise
      (fun a b => pyLower (getStrD a "email") ≠ pyLower (getStrD b "email"))
      (filter_contacts_by_title contacts top_n min_score) ∧
    (filter_contacts_by_title contacts top_n min_score).length ≤
      min top_n contacts.length := by
  obtain ⟨s, hs, hsub, hne, hpw⟩ := dedupe_by_email_spec (scoredContacts contacts min_score)
  have hpw2 : List.Pairwise
      (fun a b => pyLower (getStrD a "email") ≠ pyLower (getStrD b "email")) s := by
    refine hpw.imp ?_
    intro a b hab hc
    exact hab (by unfold emailKey; rw [hc])
  have hperm := sortScored_perm (dedupe_by_email (scoredContacts contacts min_score))
  constructor
  · show List.Pairwise _ ((sortScored (dedupe_by_email (scoredContacts contacts min_score))).take top_n)
    refine List.Pairwise.sublist (List.take_sublist _ _) ?_
    have hsymm : Symmetric (fun a b : Dict =>
        pyLower (getStrD a "email") ≠ pyLower (getStrD b "email")) :=
      fun a b hab hc => hab hc.symm
    rw [hs]
    rw [hs] at hperm
    exact hpw2.perm hperm.symm @hsymm
  · show ((sortScored _).take top_n).length ≤ _
    rw [List.length_take, hperm.length_eq, hs]
    have h1 : s.length ≤ (scoredContacts contacts min_score).length :=
      hsub.length_le
    have h2 := scoredContacts_length contacts min_score
    exact min_le_min (le_refl top_n) (h1.trans h2)

theorem foldl_scoreStep_append (ms : Int) (l : List Dict) :
    ∀ acc, l.foldl (scoreStep ms) acc = acc ++ l.foldl (scoreStep ms) [] := by
  induction l with
  | nil => simp
  | cons c cs ih =>
    intro acc
    have hstep : ∀ a : List Dict, scoreStep ms a c = a ++ scoreStep ms [] c := by
      intro a
      simp only [scoreStep]
      split <;> simp
    rw [List.foldl_cons, List.foldl_cons, ih (scoreStep ms acc c),
      ih (scoreStep ms [] c), hstep acc, List.append_assoc]

theorem scoredContacts_filter_comm (l : List Dict) (ms : Int) :
    scoredContacts (l.filter fun c => emailKey c != "") ms =
      (scoredContacts l ms).filter (fun c => emailKey c != "") := by
  induction l with
  | nil => rfl
  | cons c cs ih =>
    have hq : (emailKey (dictSet c "score" (.vint (contactScore c))) != "") =
        (emailKey c != "") := by
      rw [emailKey_dictSet_score]
    have hsplit : scoredContacts (c :: cs) ms =
        scoreStep ms [] c ++ scoredContacts cs ms := by
      show (c :: cs).foldl (scoreStep ms) [] = _
      rw [List.foldl_cons, foldl_scoreStep_append ms cs (scoreStep ms [] c)]
      rfl
    by_cases h : (emailKey c != "") = true
    · have hfil : (c :: cs).filter (fun c => emailKey c != "") =
          c :: cs.filter (fun c => emailKey c != "") := by
        rw [List.filter_cons, if_pos h]
      rw [hfil, hsplit, List.filter_append]
      have hhead : (scoreStep ms [] c).filter (fun c => emailKey c != "") =
          scoreStep ms [] c := by
        simp only [scoreStep]
        split
        · simp only [List.nil_append, List.filter_cons, List.filter_nil]
          rw [if_pos (by rw [hq]; exact h)]
        · rfl
      rw [hhead]
      have hsplit2 : scoredContacts (c :: cs.filter fun c => emailKey c != "") ms =
          scoreStep ms [] c ++ scoredContacts (cs.filter fun c => emailKey c != "") ms := by
        show (c :: _).foldl (scoreStep ms) [] = _
        rw [List.foldl_cons, foldl_scoreStep_append ms _ (scoreStep ms [] c)]
        rfl
      rw [hsplit2, ih]
    · have hfil : (c :: cs).filter (fun c => emailKey c != "") =
          cs.filter (fun c => emailKey c != "") := by
        rw [List.filter_cons, if_neg h]
      rw [hfil, hsplit, List.filter_append]
      have hhead : (scoreStep ms [] c).filter (fun c => emailKey c != "") = [] := by
        simp only [scoreStep]
        split
        · simp only [List.nil_append, List.filter_cons, List.filter_nil]
          rw [if_neg (by rw [hq]; exact h)]
        · rfl
      rw [hhead, List.nil_append, ih]

theorem foldl_dedupeStep_filter (l : List Dict) :
    ∀ (seen : List String) (out : List Dict),
      (l.filter fun c => emailKey c != "").foldl dedupeStep (seen, out) =
        l.foldl dedupeStep (seen, out) := by
  induction l with
  | nil => intro seen out; rfl
  | cons c cs ih =>
    intro seen out
    by_cases h : (emailKey c != "") = true
    · rw [List.filter_cons, if_pos h, List.foldl_cons, List.foldl_cons]
      obtain ⟨seen', out'⟩ := dedupeStep (seen, out) c
      exact ih seen' out'
    · rw [List.filter_cons, if_neg h, List.foldl_cons]
      have hc : dedupeStep (seen, out) c = (seen, out) := by
        simp only [dedupeStep]
        rw [if_pos]
        left
        simpa using h
      rw [hc]
      exact ih seen out

/-- C9: every entry returned by `filter_contacts_by_title` has a non-empty
email key (after lowercasing and stripping), and contacts whose email is
missing or empty are silently dropped: pre-filtering them away does not
change the output at all. -/
theorem C9_empty_email_dropped (contacts : List Dict) (top_n : Nat) (min_score : Int) :
    (∀ c ∈ filter_contacts_by_title contacts top_n min_score, emailKey c ≠ "") ∧
    filter_contacts_by_title (contacts.filter fun c => emailKey c != "")
        top_n min_score =
      filter_contacts_by_title contacts top_n min_score := by
  constructor
  · intro c hc
    obtain ⟨s, hs, _, hne, _⟩ := dedupe_by_email_spec (scoredContacts contacts min_score)
    have h1 : c ∈ sortScored (dedupe_by_email (scoredContacts contacts min_score)) :=
      List.take_subset top_n _ hc
    have h2 : c ∈ dedupe_by_email (scoredContacts contacts min_score) :=
      (sortScored_perm _).mem_iff.mp h1
    rw [hs] at h2
    exact hne c h2
  · show (sortScored (dedupe_by_email (scoredContacts
        (contacts.filter fun c => emailKey c != "") min_score))).take top_n = _
    rw [scoredContacts_filter_comm]
    show (sortScored ((((scoredContacts contacts min_score).filter
        (fun c => emailKey c != "")).foldl dedupeStep ([], [])).2)).take top_n = _
    rw [foldl_dedupeStep_filter]
    rfl

theorem C9_witness :
    emailKey [("title", PyVal.vstr "CEO"), ("email", PyVal.vstr "a@b.c"),
      ("score", PyVal.vint 25)] ≠ "" :=
  (C9_empty_email_dropped
    [[("title", PyVal.vstr "CEO"), ("email", PyVal.vstr "a@b.c")]] 10 1).1
    _ (by decide)

/-! ## C10: the store-passing filter mutates no input dictionary -/

theorem fcbt_store_ext (ms : Int) (refs : List Nat) :
    ∀ st : Store × List Nat, ∃ ext : Store,
      (refs.foldl (fcbtScoreStep ms) st).1 = st.1 ++ ext := by
  induction refs with
  | nil => exact fun st => ⟨[], by simp⟩
  | cons r rs ih =>
    intro st
    rw [List.foldl_cons]
    obtain ⟨ext, hext⟩ := ih (fcbtScoreStep ms st r)
    rw [hext]
    simp only [fcbtScoreStep]
    split
    · exact ⟨_, by rw [List.append_assoc]⟩
    · exact ⟨ext, rfl⟩

theorem getD_append_of_lt (l l' : Store) (n : Nat) (h : n < l.length) :
    (l ++ l').getD n [] = l.getD n [] := by
  rw [List.getD_eq_getElem?_getD, List.getD_eq_getElem?_getD,
    List.getElem?_append, if_pos h]

theorem getD_concat_self (l : Store) (x : Dict) :
    (l ++ [x]).getD l.length [] = x := by
  rw [List.getD_eq_getElem?_getD, List.getElem?_concat_length]
  rfl

theorem fcbt_refs_inv (ms : Int) (store0 : Store) (contacts0 : List Nat)
    (hvalid : ∀ r ∈ contacts0, r < store0.length) (refs : List Nat) :
    refs ⊆ contacts0 →
    ∀ st : Store × List Nat,
      (∃ ext, st.1 = store0 ++ ext) →
      (∀ r ∈ st.2, store0.length ≤ r ∧ r < st.1.length ∧ ∃ i ∈ contacts0,
        st.1.getD r [] =
          dictSet (store0.getD i []) "score" (.vint (contactScore (store0.getD i [])))) →
      ∀ r ∈ (refs.foldl (fcbtScoreStep ms) st).2,
        store0.length ≤ r ∧ r < (refs.foldl (fcbtScoreStep ms) st).1.length ∧
          ∃ i ∈ contacts0,
            (refs.foldl (fcbtScoreStep ms) st).1.getD r [] =
              dictSet (store0.getD i []) "score"
                (.vint (contactScore (store0.getD i []))) := by
  induction refs with
  | nil => exact fun _ st _ hinv r hr => hinv r hr
  | cons r0 rs ih =>
    intro hsub st hext hinv
    rw [List.foldl_cons]
    have hr0 : r0 ∈ contacts0 := hsub (List.mem_cons_self r0 rs)
    obtain ⟨ext, hextEq⟩ := hext
    refine ih (fun x hx => hsub (List.mem_cons_of_mem r0 hx)) _ ?_ ?_
    · simp only [fcbtScoreStep]
      split
      · exact ⟨_, by rw [hextEq, List.append_assoc]⟩
      · exact ⟨ext, hextEq⟩
    · intro r hr
      simp only [fcbtScoreStep] at hr ⊢
      split at hr
      · next hkeep =>
        simp only [if_pos hkeep]
        rw [List.mem_append, List.mem_singleton] at hr
        rcases hr with hr | rfl
        · obtain ⟨ha, hb, i, hi, heq⟩ := hinv r hr
          refine ⟨ha, by simpa using Nat.lt_succ_of_lt hb, i, hi, ?_⟩
          rw [getD_append_of_lt _ _ _ hb]
          exact heq
        · refine ⟨?_, ?_, r0, hr0, ?_⟩
          · rw [hextEq, List.length_append]
            omega
          · simp
          · rw [getD_concat_self]
            have hread : st.1.getD r0 [] = store0.getD r0 [] := by
              rw [hextEq, getD_append_of_lt _ _ _ (hvalid r0 hr0)]
            rw [hread]
      · next hkeep =>
        simp only [if_neg hkeep]
        exact hinv r hr

theorem dedupeRefs_mem_aux (store : Store) (l : List Nat) :
    ∀ (seen : List String) (out : List Nat) (x : Nat),
      x ∈ (l.foldl (dedupeRefStep store) (seen, out)).2 → x ∈ out ∨ x ∈ l := by
  induction l with
  | nil => exact fun seen out x hx => Or.inl hx
  | cons r rs ih =>
    intro seen out x hx
    rw [List.foldl_cons] at hx
    by_cases h : emailKey (store.getD r []) = "" ∨ emailKey (store.getD r []) ∈ seen
    · have hstep : dedupeRefStep store (seen, out) r = (seen, out) := by
        simp only [dedupeRefStep, if_pos h]
      rw [hstep] at hx
      rcases ih seen out x hx with hx' | hx'
      · exact Or.inl hx'
      · exact Or.inr (List.mem_cons_of_mem r hx')
    · have hstep : dedupeRefStep store (seen, out) r =
          (seen ++ [emailKey (store.getD r [])], out ++ [r]) := by
        simp only [dedupeRefStep, if_neg h]
      rw [hstep] at hx
      rcases ih _ _ x hx with hx' | hx'
      · rw [List.mem_append, List.mem_singleton] at hx'
        rcases hx' with hx' | rfl
        · exact Or.inl hx'
        · exact Or.inr (List.mem_cons_self x rs)
      · exact Or.inr (List.mem_cons_of_mem r hx')

theorem insDescRef_perm (store : Store) (a : Nat) (l : List Nat) :
    (insDescRef store a l).Perm (a :: l) := by
  induction l with
  | nil => exact List.Perm.refl _
  | cons b bs ih =>
    simp only [insDescRef]
    split
    · exact (ih.cons b).trans (List.Perm.swap a b bs)
    · exact List.Perm.refl _

theorem sortRefs_perm (store : Store) (l : List Nat) : (sortRefs store l).Perm l := by
  suffices h : ∀ (l acc : List Nat),
      (l.foldl (fun acc r => insDescRef store r acc) acc).Perm (acc ++ l) by
    simpa using h l []
  intro l
  induction l with
  | nil => simp
  | cons c cs ih =>
    intro acc
    rw [List.foldl_cons]
    refine (ih (insDescRef store c acc)).trans ?_
    refine ((insDescRef_perm store c acc).append_right cs).trans ?_
    exact (List.perm_middle).symm

/-- C10: under the store semantics, `filter_contacts_by_title` leaves every
pre-existing object untouched (the final store extends the input store, so no
input dict gains a `score` key), and each returned reference is fresh —
allocated by `dict(c)` — holding a copy of some input contact with the
`score` entry written on the copy. -/
theorem C10_no_input_mutation (store : Store) (contacts : List Nat) (top_n : Nat)
    (min_score : Int) (hvalid : ∀ r ∈ contacts, r < store.length) :
    (filter_contacts_by_title_st store contacts top_n min_score).1.take store.length
        = store ∧
    ∀ r ∈ (filter_contacts_by_title_st store contacts top_n min_score).2,
      store.length ≤ r ∧ ∃ i ∈ contacts,
        (filter_contacts_by_title_st store contacts top_n min_score).1.getD r [] =
          dictSet (store.getD i []) "score"
            (.vint (contactScore (store.getD i []))) := by
  obtain ⟨ext, hext⟩ := fcbt_store_ext min_score contacts (store, [])
  constructor
  · show (contacts.foldl (fcbtScoreStep min_score) (store, [])).1.take store.length = store
    rw [hext]
    exact List.take_left store ext
  · intro r hr
    have hr2 : r ∈ dedupeRefs
        (contacts.foldl (fcbtScoreStep min_score) (store, [])).1
        (contacts.foldl (fcbtScoreStep min_score) (store, [])).2 := by
      have h1 := List.take_subset top_n _ hr
      exact (sortRefs_perm _ _).mem_iff.mp h1
    have hr3 := dedupeRefs_mem_aux _ _ [] [] r hr2
    rcases hr3 with hr3 | hr3
    · exact absurd hr3 (List.not_mem_nil r)
    · have := fcbt_refs_inv min_score store contacts hvalid contacts
        (fun x hx => hx) (store, []) ⟨[], by simp⟩
        (fun r hr => absurd hr (List.not_mem_nil r)) r hr3
      exact ⟨this.1, this.2.2⟩

theorem C10_witness :
    ((filter_contacts_by_title_st [[("email", PyVal.vstr "a@b.c")]] [0] 10
        (-100)).1.take 1 = [[("email", PyVal.vstr "a@b.c")]]) ∧
    ∀ r ∈ (filter_contacts_by_title_st [[("email", PyVal.vstr "a@b.c")]] [0] 10
        (-100)).2,
      1 ≤ r ∧ ∃ i ∈ [0],
        (filter_contacts_by_title_st [[("email", PyVal.vstr "a@b.c")]] [0] 10
            (-100)).1.getD r [] =
          dictSet (([[("email", PyVal.vstr "a@b.c")]] : Store).getD i []) "score"
            (.vint (contactScore (([[("email", PyVal.vstr "a@b.c")]] : Store).getD i []))) :=
  C10_no_input_mutation [[("email", PyVal.vstr "a@b.c")]] [0] 10 (-100) (by decide)

/-! ## C8: idempotence of `expand_keywords` -/

theorem Char_toNat_ofNat_valid {n : Nat} (h : n < 55296) :
    (Char.ofNat n).toNat = n := by
  have hv : n.isValidChar := Or.inl h
  show (Char.ofNat n).val.toNat = n
  rw [Char.ofNat, dif_pos hv]
  rfl

theorem asciiLower_idem (c : Char) : asciiLower (asciiLower c) = asciiLower c := by
  by_cases h : 65 ≤ c.toNat ∧ c.toNat ≤ 90
  · have h1 : asciiLower c = Char.ofNat (c.toNat + 32) := by
      simp only [asciiLower, if_pos h]
    have ht : (Char.ofNat (c.toNat + 32)).toNat = c.toNat + 32 :=
      Char_toNat_ofNat_valid (by omega)
    rw [h1]
    simp only [asciiLower, ht]
    rw [if_neg (by omega)]
  · have h1 : asciiLower c = c := by simp only [asciiLower, if_neg h]
    rw [h1, h1]

theorem isPySpace_asciiLower (c : Char) : isPySpace (asciiLower c) = isPySpace c := by
  by_cases h : 65 ≤ c.toNat ∧ c.toNat ≤ 90
  · have h1 : asciiLower c = Char.ofNat (c.toNat + 32) := by
      simp only [asciiLower, if_pos h]
    have ht : (Char.ofNat (c.toNat + 32)).toNat = c.toNat + 32 :=
      Char_toNat_ofNat_valid (by omega)
    rw [h1]
    simp only [isPySpace, ht]
    rw [decide_eq_decide]
    omega
  · have h1 : asciiLower c = c := by simp only [asciiLower, if_neg h]
    rw [h1]

theorem dropWhile_isPySpace_idem (l : List Char) :
    (l.dropWhile isPySpace).dropWhile isPySpace = l.dropWhile isPySpace := by
  induction l with
  | nil => rfl
  | cons c cs ih =>
    by_cases h : isPySpace c = true
    · rw [List.dropWhile_cons_of_pos h]
      exact ih
    · rw [List.dropWhile_cons_of_neg h, List.dropWhile_cons_of_neg h]

theorem head?_dropWhile_false (l : List Char) (c : Char)
    (h : (l.dropWhile isPySpace).head? = some c) : isPySpace c = false := by
  induction l with
  | nil => exact absurd h (by simp)
  | cons x xs ih =>
    by_cases hx : isPySpace x = true
    · rw [List.dropWhile_cons_of_pos hx] at h
      exact ih h
    · rw [List.dropWhile_cons_of_neg hx, List.head?_cons, Option.some_inj] at h
      subst h
      simpa using hx

theorem getLast?_dropWhile (l : List Char) (h : l.dropWhile isPySpace ≠ []) :
    (l.dropWhile isPySpace).getLast? = l.getLast? := by
  induction l with
  | nil => exact absurd rfl h
  | cons x xs ih =>
    by_cases hx : isPySpace x = true
    · rw [List.dropWhile_cons_of_pos hx] at h ⊢
      rw [ih h]
      have hxs : xs ≠ [] := by
        intro hc
        subst hc
        exact h rfl
      cases hxs2 : xs.getLast? with
      | none =>
        rw [List.getLast?_eq_none_iff] at hxs2
        exact absurd hxs2 hxs
      | some y =>
        rw [List.getLast?_cons, hxs2]
        rfl
    · rw [List.dropWhile_cons_of_neg hx]

theorem dropWhile_eq_self_of_head (l : List Char) (c : Char)
    (hc : l.head? = some c) (h : isPySpace c = false) :
    l.dropWhile isPySpace = l := by
  cases l with
  | nil => rfl
  | cons x xs =>
    rw [List.head?_cons, Option.some_inj] at hc
    subst hc
    rw [List.dropWhile_cons_of_neg (by simp [h])]

theorem pyStripL_idem (l : List Char) : pyStripL (pyStripL l) = pyStripL l := by
  set u := l.dropWhile isPySpace with hu
  set v := u.reverse.dropWhile isPySpace with hv
  have hy : pyStripL l = v.reverse := rfl
  rw [hy]
  have step1 : v.reverse.dropWhile isPySpace = v.reverse := by
    by_cases hne : v = []
    · rw [hne]
      rfl
    · have hlast : v.reverse.head? = u.head? := by
        rw [List.head?_reverse, hv,
          getLast?_dropWhile u.reverse (by rw [← hv]; exact hne),
          List.getLast?_reverse]
      cases hhu : u.head? with
      | none =>
        rw [List.head?_eq_none_iff] at hhu
        exact absurd (by rw [hv, hhu]; rfl) hne
      | some c0 =>
        have hc0 : isPySpace c0 = false :=
          head?_dropWhile_false l c0 (by rw [← hu]; exact hhu)
        exact dropWhile_eq_self_of_head _ c0 (by rw [hlast]; exact hhu) hc0
  show pyStripL v.reverse = v.reverse
  unfold pyStripL dropRightWhileL
  rw [step1, List.reverse_reverse]
  have hvidem : v.dropWhile isPySpace = v := by
    rw [hv]
    exact dropWhile_isPySpace_idem u.reverse
  rw [hvidem]

theorem dropWhile_isPySpace_map (l : List Char) :
    (l.map asciiLower).dropWhile isPySpace = (l.dropWhile isPySpace).map asciiLower := by
  rw [List.dropWhile_map]
  have h : (isPySpace ∘ asciiLower) = isPySpace :=
    funext fun c => isPySpace_asciiLower c
  rw [h]

theorem pyStripL_map (l : List Char) :
    pyStripL (l.map asciiLower) = (pyStripL l).map asciiLower := by
  unfold pyStripL dropRightWhileL
  rw [dropWhile_isPySpace_map, ← List.map_reverse, dropWhile_isPySpace_map,
    ← List.map_reverse]

theorem map_asciiLower_idem (l : List Char) :
    (l.map asciiLower).map asciiLower = l.map asciiLower := by
  rw [List.map_map]
  congr 1
  funext c
  exact asciiLower_idem c

theorem stripLower_idem (s : String) : stripLower (stripLower s) = stripLower s := by
  show (⟨(pyStripL ((pyStripL s.data).map asciiLower)).map asciiLower⟩ : String) =
    ⟨(pyStripL s.data).map asciiLower⟩
  rw [pyStripL_map, map_asciiLower_idem, pyStripL_idem]

theorem lookup_mem_strToList {l : List (String × List String)} {a : String}
    {b : List String} (h : l.lookup a = some b) : (a, b) ∈ l := by
  induction l with
  | nil => exact absurd h (by simp [List.lookup])
  | cons p ps ih =>
    rw [List.lookup] at h
    split at h
    · next heq =>
      rw [Option.some_inj] at h
      rw [beq_iff_eq] at heq
      subst heq
      subst h
      exact List.mem_cons_self _ _
    · exact List.mem_cons_of_mem p (ih h)

theorem SYNONYMS_normed :
    ∀ p ∈ SYNONYMS, ∀ a ∈ p.2, stripLower a = a ∧ a ≠ "" := by
  decide

theorem SYNONYMS_key_unique :
    ∀ p ∈ SYNONYMS, ∀ a ∈ p.2, ∀ q ∈ SYNONYMS, a = q.1 → a = p.1 := by
  decide

theorem synOf_cases (b : String) : synOf b = [] ∨ (b, synOf b) ∈ SYNONYMS := by
  unfold synOf
  cases h : SYNONYMS.lookup b with
  | none => exact Or.inl rfl
  | some l => exact Or.inr (lookup_mem_strToList h)

theorem synOf_normed {b a : String} (ha : a ∈ synOf b) :
    stripLower a = a ∧ a ≠ "" := by
  rcases synOf_cases b with h | h
  · rw [h] at ha
    exact absurd ha (List.not_mem_nil a)
  · exact SYNONYMS_normed _ h a ha

theorem synOf_key {b a : String} (ha : a ∈ synOf b) (hk : synOf a ≠ []) : a = b := by
  rcases synOf_cases b with h | h
  · rw [h] at ha
    exact absurd ha (List.not_mem_nil a)
  · rcases synOf_cases a with h2 | h2
    · exact absurd h2 hk
    · exact SYNONYMS_key_unique _ h a ha _ h2 rfl

/-- The elements newly appended when folding `addAlt` over `L` from `out`,
in order of first appearance. -/
def newL (out : List String) : List String → List String
  | [] => []
  | a :: L => if a ∈ out then newL out L else a :: newL (out ++ [a]) L

theorem foldl_addAlt_newL (L : List String) :
    ∀ out, L.foldl addAlt out = out ++ newL out L := by
  induction L with
  | nil => intro out; simp [newL]
  | cons a L ih =>
    intro out
    rw [List.foldl_cons]
    by_cases h : a ∈ out
    · rw [show addAlt out a = out from if_pos h, ih out, newL, if_pos h]
    · rw [show addAlt out a = out ++ [a] from if_neg h, ih (out ++ [a]),
        newL, if_neg h, List.append_assoc]
      rfl

theorem newL_mem {L out : List String} {x : String} (hx : x ∈ newL out L) :
    x ∈ L ∧ x ∉ out := by
  induction L generalizing out with
  | nil => exact absurd hx (List.not_mem_nil x)
  | cons a L ih =>
    rw [newL] at hx
    split at hx
    · have := ih hx
      exact ⟨List.mem_cons_of_mem a this.1, this.2⟩
    · next h =>
      rcases List.mem_cons.mp hx with rfl | hx'
      · exact ⟨List.mem_cons_self x L, h⟩
      · have := ih hx'
        refine ⟨List.mem_cons_of_mem a this.1, fun hc => this.2 (List.mem_append_left _ hc)⟩

theorem newL_nodup (L : List String) : ∀ out, (newL out L).Nodup := by
  induction L with
  | nil => intro out; exact List.nodup_nil
  | cons a L ih =>
    intro out
    rw [newL]
    split
    · exact ih out
    · refine List.Nodup.cons ?_ (ih (out ++ [a]))
      intro hc
      exact (newL_mem hc).2 (List.mem_append_right _ (List.mem_singleton_self a))

theorem newL_shift (L : List String) :
    ∀ (out Δ₁ Δ₂ : List String), newL out L = Δ₁ ++ Δ₂ →
      newL (out ++ Δ₁) L = Δ₂ := by
  induction L with
  | nil =>
    intro out Δ₁ Δ₂ h
    rw [newL] at h ⊢
    obtain ⟨h1, h2⟩ := (List.append_eq_nil).mp h.symm
    rw [h2]
  | cons a L ih =>
    intro out Δ₁ Δ₂ h
    rw [newL] at h
    split at h
    · next ha =>
      rw [newL, if_pos (List.mem_append_left _ ha)]
      exact ih out Δ₁ Δ₂ h
    · next ha =>
      cases Δ₁ with
      | nil =>
        rw [List.append_nil]
        rw [List.nil_append] at h
        rw [newL, if_neg ha]
        exact h
      | cons a' Δ₁' =>
        rw [List.cons_append] at h
        injection h with h1 h2
        subst h1
        have hmem : a ∈ out ++ a :: Δ₁' := List.mem_append_right _ (List.mem_cons_self a Δ₁')
        rw [newL, if_pos hmem]
        have := ih (out ++ [a]) Δ₁' Δ₂ h2
        rw [List.append_assoc] at this
        simpa using this

theorem expandStep_skip (acc : List String) (r : String)
    (h1 : stripLower r = r) (h2 : r ≠ "") (h3 : synOf r = []) (h4 : r ∈ acc) :
    expandStep acc r = acc := by
  simp only [expandStep, h1, if_neg h2, h3, List.nil_append, List.foldl_cons,
    List.foldl_nil]
  exact if_pos h4

theorem foldl_expandStep_skip (rest : List String) :
    ∀ acc, (∀ r ∈ rest, stripLower r = r ∧ r ≠ "" ∧ synOf r = [] ∧ r ∈ acc) →
      rest.foldl expandStep acc = acc := by
  induction rest with
  | nil => intro acc _; rfl
  | cons r rs ih =>
    intro acc h
    obtain ⟨h1, h2, h3, h4⟩ := h r (List.mem_cons_self r rs)
    rw [List.foldl_cons, expandStep_skip acc r h1 h2 h3 h4]
    exact ih acc fun x hx => h x (List.mem_cons_of_mem r hx)

theorem expand_absorb (b : String) (hb1 : stripLower b = b) (hb2 : b ≠ "")
    (out : List String) :
    ∀ (Δ₂ Δ₁ : List String), newL out (synOf b ++ [b]) = Δ₁ ++ Δ₂ →
      Δ₂.foldl expandStep (out ++ Δ₁) = out ++ (Δ₁ ++ Δ₂) := by
  intro Δ₂
  induction Δ₂ with
  | nil =>
    intro Δ₁ h
    rw [List.append_nil]
    rfl
  | cons d Δ₂' ih =>
    intro Δ₁ h
    have hd : d ∈ newL out (synOf b ++ [b]) := by
      rw [h]
      exact List.mem_append_right _ (List.mem_cons_self d Δ₂')
    obtain ⟨hdBlock, hdOut⟩ := newL_mem hd
    have hdn : stripLower d = d ∧ d ≠ "" := by
      rcases List.mem_append.mp hdBlock with h' | h'
      · exact synOf_normed h'
      · rw [List.mem_singleton] at h'
        subst h'
        exact ⟨hb1, hb2⟩
    have hnodup := newL_nodup (synOf b ++ [b]) out
    rw [h] at hnodup
    have hdΔ₁ : d ∉ Δ₁ := by
      intro hc
      rcases List.nodup_append.mp hnodup with ⟨_, _, hdisj⟩
      exact hdisj hc (List.mem_cons_self d Δ₂')
    rw [List.foldl_cons]
    have hstep : expandStep (out ++ Δ₁) d =
        (out ++ Δ₁) ++ newL (out ++ Δ₁) (synOf d ++ [d]) := by
      simp only [expandStep, hdn.1, if_neg hdn.2]
      exact foldl_addAlt_newL _ _
    by_cases hkey : synOf d = []
    · have hnm : d ∉ out ++ Δ₁ := by
        intro hc
        rcases List.mem_append.mp hc with hc' | hc'
        · exact hdOut hc'
        · exact hdΔ₁ hc'
      have hblock : newL (out ++ Δ₁) (synOf d ++ [d]) = [d] := by
        rw [hkey, List.nil_append, newL, if_neg hnm]
        rfl
      rw [hstep, hblock]
      have := ih (Δ₁ ++ [d]) (by rw [h, List.append_assoc]; rfl)
      rw [List.append_assoc] at this ⊢
      simpa using this
    · have hdb : d = b := by
        rcases List.mem_append.mp hdBlock with h' | h'
        · exact synOf_key h' hkey
        · exact List.mem_singleton.mp h'
      subst hdb
      have hshift : newL (out ++ Δ₁) (synOf d ++ [d]) = d :: Δ₂' :=
        newL_shift _ out Δ₁ (d :: Δ₂') h
      rw [hstep, hshift]
      have hrest : ∀ r ∈ Δ₂', stripLower r = r ∧ r ≠ "" ∧ synOf r = [] ∧
          r ∈ (out ++ Δ₁) ++ d :: Δ₂' := by
        intro r hr
        have hrΔ : r ∈ newL out (synOf d ++ [d]) := by
          rw [h]
          exact List.mem_append_right _ (List.mem_cons_of_mem d hr)
        obtain ⟨hrBlock, hrOut⟩ := newL_mem hrΔ
        have hrn : stripLower r = r ∧ r ≠ "" := by
          rcases List.mem_append.mp hrBlock with h' | h'
          · exact synOf_normed h'
          · rw [List.mem_singleton] at h'
            subst h'
            exact ⟨hb1, hb2⟩
        have hrne : r ≠ d := by
          intro hc
          subst hc
          rcases List.nodup_append.mp hnodup with ⟨_, hn2, _⟩
          exact (List.nodup_cons.mp hn2).1 hr
        have hrkey : synOf r = [] := by
          by_cases hc : synOf r = []
          · exact hc
          · rcases List.mem_append.mp hrBlock with h' | h'
            · exact absurd (synOf_key h' hc) hrne
            · rw [List.mem_singleton] at h'
              exact absurd h' hrne
        exact ⟨hrn.1, hrn.2, hrkey,
          List.mem_append_right _ (List.mem_cons_of_mem d hr)⟩
      have hfold := foldl_expandStep_skip Δ₂' ((out ++ Δ₁) ++ d :: Δ₂') hrest
      exact hfold.trans (by rw [List.append_assoc])

/-- C8: `expand_keywords` is idempotent — re-expanding an expanded keyword
list reproduces it exactly, elements and order alike. The only synonym value
that is itself a table key is `"expansion"`, inside its own block, so
re-processing an output list only re-emits already-present elements in place. -/
theorem C8_expand_keywords_idempotent (keywords : List String) :
    expand_keywords (expand_keywords keywords) = expand_keywords keywords := by
  induction keywords using List.reverseRecOn with
  | nil => rfl
  | append_singleton ks k ih =>
    have hEapp : expand_keywords (ks ++ [k]) = expandStep (expand_keywords ks) k := by
      show (ks ++ [k]).foldl expandStep [] = _
      rw [List.foldl_append]
      rfl
    by_cases hbase : stripLower k = ""
    · have hskip : expandStep (expand_keywords ks) k = expand_keywords ks := by
        simp [expandStep, hbase]
      rw [hEapp, hskip]
      exact ih
    · have hb1 : stripLower (stripLower k) = stripLower k := stripLower_idem k
      have hstep : expandStep (expand_keywords ks) k =
          expand_keywords ks ++
            newL (expand_keywords ks) (synOf (stripLower k) ++ [stripLower k]) := by
        simp only [expandStep, if_neg hbase]
        exact foldl_addAlt_newL _ _
      rw [hEapp, hstep]
      show (expand_keywords ks ++
        newL (expand_keywords ks) (synOf (stripLower k) ++ [stripLower k])).foldl
          expandStep [] = _
      rw [List.foldl_append]
      show (newL (expand_keywords ks) (synOf (stripLower k) ++ [stripLower k])).foldl
        expandStep (expand_keywords (expand_keywords ks)) = _
      rw [ih]
      have habs := expand_absorb (stripLower k) hb1 hbase (expand_keywords ks)
        (newL (expand_keywords ks) (synOf (stripLower k) ++ [stripLower k])) []
        (by rw [List.nil_append])
      simpa using habs

end BusinessRadar
